import Mathlib

/-!
# The per-CPU physical page allocator of `kernel/kalloc.c`

A shallow embedding of `kernel/kalloc.c`: physical memory is a byte-addressed
map, every `kmem[i].freelist` is a 64-bit pointer into that memory, and a free
page stores its `next` link in its own first eight bytes (little endian, as on
RISC-V).  Lock and interrupt operations are recorded in a trace.  The list a
pool holds is read back from memory by following the `next` links.
-/

namespace Kalloc

/-! ## Machine model -/

/-- Modelled from the spec: the constant `PGSIZE` of riscv.h is not among the sources at
hand; the specification fixes the page size at 4096 bytes, and so does the header comment
of kalloc.c ("Allocates whole 4096-byte pages"). -/
def PGSIZE : Nat := 4096

/-- Build parameters that `kalloc.c` takes from other files: `NCPU` (param.h),
the linker symbol `end` (kernel.ld, here `kend`) and `PHYSTOP` (memlayout.h). -/
structure Config where
  NCPU : Nat
  kend : Nat
  PHYSTOP : Nat

/-- Calls into the lock and interrupt primitives, recorded in program order. -/
inductive Ev where
  | push_off
  | pop_off
  | initlock (i : Nat)
  | acquire (i : Nat)
  | release (i : Nat)
  deriving DecidableEq, Repr

/-- Kernel state seen by the allocator: byte-addressed physical memory, the
`freelist` field of every `kmem[i]`, and the trace of lock events. -/
structure KState where
  mem : Nat → Nat
  freelist : Nat → Nat
  trace : List Ev

/-- Outcome of running a piece of the allocator: normal return with a value,
a call of `panic` (which never returns), a trap on a null pointer dereference,
or a loop that did not finish within the given number of iterations. -/
inductive Res (α : Type) where
  | ok (v : α) (s : KState)
  | panic (msg : String) (s : KState)
  | fault (s : KState)
  | timeout

/-- Sequencing of two pieces of code: the second runs only after a normal return. -/
def Res.bind {α β : Type} (x : Res α) (f : α → KState → Res β) : Res β :=
  match x with
  | .ok v s => f v s
  | .panic msg s => .panic msg s
  | .fault s => .fault s
  | .timeout => .timeout

/-- Load of a 64-bit little-endian word, the read of `r->next`. -/
def read64 (m : Nat → Nat) (a : Nat) : Nat :=
  m a % 256 + 256 * (m (a + 1) % 256 + 256 * (m (a + 2) % 256 + 256 * (m (a + 3) % 256
    + 256 * (m (a + 4) % 256 + 256 * (m (a + 5) % 256 + 256 * (m (a + 6) % 256
    + 256 * (m (a + 7) % 256)))))))

/-- Store of a 64-bit little-endian word, the write of `r->next`. -/
def write64 (m : Nat → Nat) (a v : Nat) : Nat → Nat :=
  fun x => if a ≤ x ∧ x < a + 8 then v / 256 ^ (x - a) % 256 else m x

/-- Modelled from the spec: `memset(dst, c, n)` (string.c) is not among the sources at
hand; the specification says the full page is overwritten with a fixed byte pattern, so
the `n` bytes from `dst` are set to the byte `c`. -/
def memset (m : Nat → Nat) (dst c n : Nat) : Nat → Nat :=
  fun x => if dst ≤ x ∧ x < dst + n then c % 256 else m x

/-- Modelled from the spec: the macro `PGROUNDUP` of riscv.h is not part of the
sources at hand; the specification says "round the lower bound up to the next page
boundary".  `freerange` applies it to `(uint64)pa_start`, so the sum is taken in 64 bits
and wraps at `2^64`. -/
def PGROUNDUP (sz : Nat) : Nat := (sz + PGSIZE - 1) % 2 ^ 64 / PGSIZE * PGSIZE

/-- The call `push_off()`: interrupts off, recorded in the trace. -/
def push_off (s : KState) : KState := { s with trace := s.trace ++ [Ev.push_off] }

/-- The call `pop_off()`, recorded in the trace. -/
def pop_off (s : KState) : KState := { s with trace := s.trace ++ [Ev.pop_off] }

/-- The call `initlock(&kmem[i].lock, "kmem")`, recorded in the trace. -/
def initlock (i : Nat) (s : KState) : KState := { s with trace := s.trace ++ [Ev.initlock i] }

/-- The call `acquire(&kmem[i].lock)`, recorded in the trace; in a sequential run the
lock is free and the call returns at once. -/
def acquire (i : Nat) (s : KState) : KState := { s with trace := s.trace ++ [Ev.acquire i] }

/-- The call `release(&kmem[i].lock)`, recorded in the trace. -/
def release (i : Nat) (s : KState) : KState := { s with trace := s.trace ++ [Ev.release i] }

/-- The assignment `kmem[i].freelist = v`. -/
def set_freelist (i v : Nat) (s : KState) : KState :=
  { s with freelist := Function.update s.freelist i v }

/-- The assignment `r->next = v`. -/
def set_next (r v : Nat) (s : KState) : KState :=
  { s with mem := write64 s.mem r v }

/-! ## The functions of `kalloc.c` -/

/-- The function `kfree_cpu(pa, cpu_id)`, lines 57-74. -/
def kfree_cpu (cfg : Config) (pa cpu_id : Nat) (s : KState) : Res Unit :=
  if pa % PGSIZE ≠ 0 ∨ pa < cfg.kend ∨ pa ≥ cfg.PHYSTOP then
    .panic "kfree_cpu" s
  else
    let s := { s with mem := memset s.mem pa 1 PGSIZE }
    let r := pa
    let s := acquire cpu_id s
    let s := set_next r (s.freelist cpu_id) s
    let s := set_freelist cpu_id r s
    let s := release cpu_id s
    .ok () s

/-- The function `kfree(pa)`, lines 81-106, run on the core whose `cpuid()` is `cpu`. -/
def kfree (cfg : Config) (cpu pa : Nat) (s : KState) : Res Unit :=
  let s := push_off s
  let cpu_id := cpu
  if pa % PGSIZE ≠ 0 ∨ pa < cfg.kend ∨ pa ≥ cfg.PHYSTOP then
    .panic "kfree" s
  else
    let s := { s with mem := memset s.mem pa 1 PGSIZE }
    let r := pa
    let s := acquire cpu_id s
    let s := set_next r (s.freelist cpu_id) s
    let s := set_freelist cpu_id r s
    let s := release cpu_id s
    let s := pop_off s
    .ok () s

/-- The loop `for(; p + PGSIZE <= pa_end; p += PGSIZE)` of `freerange`, lines 49-53,
entered with the current values of `p` and `i`.  The pointer `p` is a 64-bit value, so
`p + PGSIZE` wraps at `2^64`, in the test and in the step.  The first argument bounds the
number of iterations; `timeout` when the bound is reached.  The `int` counter `i` is kept
as a natural number: it counts pages and stays below `2^31` under `Config.ok`. -/
def freerange_loop (cfg : Config) (pa_end : Nat) : Nat → Nat → Nat → KState → Res Unit
  | 0, _, _, _ => .timeout
  | fuel + 1, p, i, s =>
    if (p + PGSIZE) % 2 ^ 64 ≤ pa_end then
      (kfree_cpu cfg p (i % cfg.NCPU) s).bind fun _ s =>
        freerange_loop cfg pa_end fuel ((p + PGSIZE) % 2 ^ 64) (i + 1) s
    else
      .ok () s

/-- Number of distinct values that the pointer `p` of `freerange` can take: after this
many steps of `PGSIZE` a 64-bit pointer is back at its first value. -/
@[irreducible] def freerange_bound : Nat := 2 ^ 64 / PGSIZE

/-- The function `freerange(pa_start, pa_end)`, lines 41-54.  Whether the loop goes on and
whether `kfree_cpu` panics depends on `p` only, and after `freerange_bound` steps `p` is
back at its first value: a run that has not ended within that many iterations never ends,
so the loop is given this bound. -/
def freerange (cfg : Config) (pa_start pa_end : Nat) (s : KState) : Res Unit :=
  freerange_loop cfg pa_end freerange_bound (PGROUNDUP pa_start) 0 s

/-- The loop of `kinit` that calls `initlock` on the lock of every pool, lines 34-37,
entered with `i = NCPU - rem`. -/
def kinit_locks (cfg : Config) : Nat → KState → KState
  | 0, s => s
  | rem + 1, s => kinit_locks cfg rem (initlock (cfg.NCPU - (rem + 1)) s)

/-- The function `kinit()`, lines 29-39. -/
def kinit (cfg : Config) (s : KState) : Res Unit :=
  let s := kinit_locks cfg cfg.NCPU s
  freerange cfg cfg.kend cfg.PHYSTOP s

/-- The loop `while(r) { r = r->next; count++; }` of `has_pages`, lines 118-121, with a
bound on the number of iterations; `none` when the bound is reached. -/
def has_pages_walk (m : Nat → Nat) : Nat → Nat → Nat → Option Nat
  | 0, r, count => if r = 0 then some count else none
  | fuel + 1, r, count =>
    if r = 0 then some count else has_pages_walk m fuel (read64 m r) (count + 1)

/-- The function `has_pages(cpu, n)`, lines 108-125.  The result is `count == n`.  The
`int` counter `count` is kept as a natural number: it counts the pages of one list. -/
def has_pages (fuel cpu n : Nat) (s : KState) : Res Nat :=
  let s := acquire cpu s
  let r := s.freelist cpu
  match has_pages_walk s.mem fuel r 0 with
  | none => .timeout
  | some count =>
    let s := release cpu s
    .ok (if count = n then 1 else 0) s

/-- The loop `while(n > 0)` of `steal_pages`, lines 139-150, for `n ≥ 0`.  The head `r`
of the source list is dereferenced without a test (`r->next`, line 144), which traps
when it is null. -/
def steal_loop (cpu_dest cpu_src : Nat) : Nat → KState → Res Unit
  | 0, s => .ok () s
  | n + 1, s =>
    let r := s.freelist cpu_src
    if r = 0 then .fault s
    else
      let s := set_freelist cpu_src (read64 s.mem r) s
      let s := set_next r (s.freelist cpu_dest) s
      let s := set_freelist cpu_dest r s
      steal_loop cpu_dest cpu_src n s

/-- The function `steal_pages(cpu_dest, cpu_src, n)`, lines 127-155. -/
def steal_pages (cpu_dest cpu_src n : Nat) (s : KState) : Res Unit :=
  if cpu_dest = cpu_src then .ok () s
  else
    let s := acquire cpu_dest s
    let s := acquire cpu_src s
    (steal_loop cpu_dest cpu_src n s).bind fun _ s =>
      let s := release cpu_src s
      let s := release cpu_dest s
      .ok () s

/-- The locked pop of the local list in `kalloc`, lines 170-176 and again 191-195:
`r = kmem[cpu_id].freelist; if(r) kmem[cpu_id].freelist = r->next;`. -/
def kalloc_pop (cpu_id : Nat) (s : KState) : Nat × KState :=
  let s := acquire cpu_id s
  let r := s.freelist cpu_id
  let s := if r ≠ 0 then set_freelist cpu_id (read64 s.mem r) s else s
  let s := release cpu_id s
  (r, s)

/-- The pool probed in iteration `i` of the loop of `kalloc`, line 181:
`int next_neighbor = (cpu_id + i + 1) % NCPU;`. -/
def next_neighbor (cfg : Config) (cpu_id i : Nat) : Nat := (cpu_id + i + 1) % cfg.NCPU

/-- The loop `for(int i = 0; i < NCPU; i++)` of `kalloc`, lines 180-210, entered with
`rem = NCPU - i` iterations left; it yields the last value of `r`. -/
def kalloc_scan (cfg : Config) (fuel cpu_id : Nat) : Nat → Nat → KState → Res Nat
  | 0, _, s => .ok 0 s
  | rem + 1, i, s =>
    (has_pages fuel (next_neighbor cfg cpu_id i) 1 s).bind fun b s =>
      (if b ≠ 0 then steal_pages cpu_id (next_neighbor cfg cpu_id i) 1 s
        else .ok () s).bind fun _ s =>
        let rs := kalloc_pop cpu_id s
        if rs.1 ≠ 0 then .ok rs.1 rs.2
        else kalloc_scan cfg fuel cpu_id rem (i + 1) rs.2

/-- The function `kalloc()`, lines 160-220, run on the core whose `cpuid()` is `cpu`;
`fuel` bounds the list walks of `has_pages`. -/
def kalloc (cfg : Config) (fuel cpu : Nat) (s : KState) : Res Nat :=
  let s := push_off s
  let cpu_id := cpu
  let rs := kalloc_pop cpu_id s
  (if rs.1 = 0 then kalloc_scan cfg fuel cpu_id cfg.NCPU 0 rs.2 else .ok rs.1 rs.2).bind
    fun r s =>
      let s := if r ≠ 0 then { s with mem := memset s.mem r 5 PGSIZE } else s
      let s := pop_off s
      .ok r s

/-! ## Reading the pools back from memory -/

/-- The chain of `next` links that starts at the head pointer `h` visits exactly the
pages of the list and then ends in a null pointer. -/
def IsList (m : Nat → Nat) : Nat → List Nat → Prop
  | h, [] => h = 0
  | h, p :: L => h = p ∧ p ≠ 0 ∧ IsList m (read64 m p) L

/-- The test that `kfree` and `kfree_cpu` apply to an address before accepting it:
a multiple of the page size inside `[end, PHYSTOP)`. -/
def valid_page (cfg : Config) (p : Nat) : Prop :=
  p % PGSIZE = 0 ∧ cfg.kend ≤ p ∧ p < cfg.PHYSTOP

instance valid_page_decidable (cfg : Config) (p : Nat) : Decidable (valid_page cfg p) :=
  inferInstanceAs (Decidable (p % PGSIZE = 0 ∧ cfg.kend ≤ p ∧ p < cfg.PHYSTOP))

/-- Whether the chain from `h` spells the list `L` can be checked by following it. -/
def IsList.decide (m : Nat → Nat) : (h : Nat) → (L : List Nat) → Decidable (IsList m h L)
  | h, [] => inferInstanceAs (Decidable (h = 0))
  | h, p :: L =>
    have := IsList.decide m (read64 m p) L
    inferInstanceAs (Decidable (h = p ∧ p ≠ 0 ∧ IsList m (read64 m p) L))

instance IsList_decidable (m : Nat → Nat) (h : Nat) (L : List Nat) : Decidable (IsList m h L) :=
  IsList.decide m h L

/-- Sanity of the build parameters: at least one CPU, the kernel image ends above
address zero, and physical memory ends below 8 TiB.  Then every physical address fits
in the 64 bits of a pointer and there are fewer than `2^31` pages, so that the `int`
counters `i` of `freerange` and `count` of `has_pages`, which the embedding keeps as
natural numbers, never overflow.  (xv6 has `PHYSTOP = 0x88000000`.) -/
def Config.ok (cfg : Config) : Prop :=
  0 < cfg.NCPU ∧ 0 < cfg.kend ∧ cfg.PHYSTOP < 2 ^ 43

/-- All pages of the pools `0 .. NCPU-1`, pool after pool. -/
def pooled (cfg : Config) (pools : Nat → List Nat) : List Nat :=
  (List.range cfg.NCPU).flatMap pools

/-- The state holds the lists `pools 0 .. pools (NCPU-1)`: every `kmem[i].freelist`
heads the list `pools i`, every listed address is a valid page, and no page is listed
twice, within one pool or across pools. -/
structure Pools (cfg : Config) (s : KState) (pools : Nat → List Nat) : Prop where
  is_list : ∀ i, i < cfg.NCPU → IsList s.mem (s.freelist i) (pools i)
  is_valid : ∀ p, p ∈ pooled cfg pools → valid_page cfg p
  nodup : (pooled cfg pools).Nodup

/-- The state before `kinit`: `kmem` is a zero-filled global, memory is arbitrary. -/
def boot (m : Nat → Nat) : KState := ⟨m, fun _ => 0, []⟩

/-- The configuration of the concrete scenario of the specification: two pools and the
managed range `[0x1000, 0x5000)`. -/
def demo_cfg : Config := ⟨2, 0x1000, 0x5000⟩

/-- The lists of the concrete scenario after `kinit` and two allocations on core 0:
pool 0 is empty and pool 1 holds the pages `0x4000` and `0x2000`. -/
def demo_pools : Nat → List Nat := fun i => if i = 1 then [0x4000, 0x2000] else []

/-- Number of whole pages between the rounded-up end of the kernel and `PHYSTOP`. -/
def page_count (cfg : Config) : Nat := (cfg.PHYSTOP - PGROUNDUP cfg.kend) / PGSIZE

/-- Address of the page with index `k`, counted from 0 in increasing address order. -/
def page_at (cfg : Config) (k : Nat) : Nat := PGROUNDUP cfg.kend + k * PGSIZE

/-- The configuration whose managed range is the range `[lower, upper)` of a call
`freerange(lower, upper)`: `page_at`, `page_count` and `seeded` of it are the pages of
that call. -/
def range_cfg (cfg : Config) (lower upper : Nat) : Config := ⟨cfg.NCPU, lower, upper⟩

/-- The pages of the managed range, in increasing address order. -/
def managed (cfg : Config) : List Nat := (List.range (page_count cfg)).map (page_at cfg)

/-- The list of pool `j` once the pages with index below `n` have been handed out in
turn to the pools `0, 1, .., NCPU-1, 0, 1, ..`, the last one on top. -/
def seeded (cfg : Config) : Nat → Nat → List Nat
  | 0, _ => []
  | n + 1, j => if n % cfg.NCPU = j then page_at cfg n :: seeded cfg n j else seeded cfg n j

/-- States reached from `kinit` by sequential calls, together with the pages that
callers hold: `kalloc` hands its result to a caller, `kfree` and `kfree_cpu` take back
a page that a caller holds, `steal_pages` runs on a source that holds at least `n` pages,
and a caller may write into a page it holds. -/
inductive Reachable (cfg : Config) : KState → List Nat → Prop
  | init (m : Nat → Nat) (s : KState) :
      kinit cfg (boot m) = .ok () s → Reachable cfg s []
  | alloc (s : KState) (held : List Nat) (fuel c r : Nat) (s' : KState) :
      Reachable cfg s held → c < cfg.NCPU → kalloc cfg fuel c s = .ok r s' →
      Reachable cfg s' (if r = 0 then held else r :: held)
  | free (s : KState) (held : List Nat) (c pa : Nat) (s' : KState) :
      Reachable cfg s held → c < cfg.NCPU → pa ∈ held → kfree cfg c pa s = .ok () s' →
      Reachable cfg s' (held.erase pa)
  | free_cpu (s : KState) (held : List Nat) (id pa : Nat) (s' : KState) :
      Reachable cfg s held → id < cfg.NCPU → pa ∈ held → kfree_cpu cfg pa id s = .ok () s' →
      Reachable cfg s' (held.erase pa)
  | steal (s : KState) (held : List Nat) (dest src n : Nat) (L : List Nat) (s' : KState) :
      Reachable cfg s held → dest < cfg.NCPU → src < cfg.NCPU →
      IsList s.mem (s.freelist src) L → n ≤ L.length →
      steal_pages dest src n s = .ok () s' → Reachable cfg s' held
  | write (s : KState) (held : List Nat) (pa k v : Nat) :
      Reachable cfg s held → pa ∈ held → k < PGSIZE →
      Reachable cfg { s with mem := Function.update s.mem (pa + k) v } held

/-- A state that holds `demo_pools`: page `0x4000` links to page `0x2000`, which ends
the list of pool 1. -/
def demo_state : KState :=
  ⟨write64 (write64 (fun _ => 0) 0x2000 0) 0x4000 0x2000, fun i => if i = 1 then 0x4000 else 0, []⟩

/-- A configuration whose upper bound `0x4800` is not a multiple of the page size. -/
def unaligned_cfg : Config := ⟨2, 0x1000, 0x4800⟩

/-- The lists of a state in which pool 0 is empty and pool 1 holds the single page
`0x2000`. -/
def stealable_pools : Nat → List Nat := fun i => if i = 1 then [0x2000] else []

/-- A state that holds `stealable_pools`. -/
def stealable_state : KState :=
  ⟨write64 (fun _ => 0) 0x2000 0, fun i => if i = 1 then 0x2000 else 0, []⟩

/-! ## Memory lemmas -/

theorem read64_lt (m : Nat → Nat) (a : Nat) : read64 m a < 2 ^ 64 := by
  unfold read64; omega

theorem read64_congr (m m' : Nat → Nat) (a : Nat)
    (h : ∀ k, k < 8 → m' (a + k) = m (a + k)) : read64 m' a = read64 m a := by
  have h0 := h 0 (by omega)
  rw [Nat.add_zero] at h0
  unfold read64
  rw [h0, h 1 (by omega), h 2 (by omega), h 3 (by omega), h 4 (by omega), h 5 (by omega),
    h 6 (by omega), h 7 (by omega)]

theorem read64_write64 (m : Nat → Nat) (a v : Nat) (hv : v < 2 ^ 64) :
    read64 (write64 m a v) a = v := by
  simp [read64, write64]
  omega

theorem write64_outside (m : Nat → Nat) (a v x : Nat) (h : ¬ (a ≤ x ∧ x < a + 8)) :
    write64 m a v x = m x := by
  simp only [write64, if_neg h]

theorem memset_outside (m : Nat → Nat) (dst c n x : Nat) (h : ¬ (dst ≤ x ∧ x < dst + n)) :
    memset m dst c n x = m x := by
  simp only [memset, if_neg h]

theorem memset_inside (m : Nat → Nat) (dst c n x : Nat) (h : dst ≤ x ∧ x < dst + n) :
    memset m dst c n x = c % 256 := by
  simp only [memset, if_pos h]

/-! ## Lists in memory -/

theorem IsList_frame (m m' : Nat → Nat) (L : List Nat) :
    ∀ h, (∀ q, q ∈ L → ∀ k, k < 8 → m' (q + k) = m (q + k)) → IsList m h L → IsList m' h L := by
  induction L with
  | nil => intro h _ hl; exact hl
  | cons p L ih =>
    intro h hf hl
    obtain ⟨h1, h2, h3⟩ := hl
    refine ⟨h1, h2, ?_⟩
    rw [read64_congr m m' p (hf p (List.mem_cons_self p L))]
    exact ih _ (fun q hq => hf q (List.mem_cons_of_mem p hq)) h3

theorem IsList_unique (m : Nat → Nat) (L1 : List Nat) :
    ∀ h L2, IsList m h L1 → IsList m h L2 → L1 = L2 := by
  induction L1 with
  | nil =>
    intro h L2 h1 h2
    cases L2 with
    | nil => rfl
    | cons q L2 =>
      obtain ⟨e, ne, _⟩ := h2
      simp only [IsList] at h1
      omega
  | cons p L1 ih =>
    intro h L2 h1 h2
    obtain ⟨e1, ne1, t1⟩ := h1
    cases L2 with
    | nil => simp only [IsList] at h2; omega
    | cons q L2 =>
      obtain ⟨e2, _, t2⟩ := h2
      have hpq : p = q := by omega
      subst hpq
      rw [ih _ _ t1 t2]

theorem IsList_head_lt (m : Nat → Nat) (h : Nat) (L : List Nat) (hl : IsList m h L)
    (hb : ∀ q, q ∈ L → q < 2 ^ 64) : h < 2 ^ 64 := by
  cases L with
  | nil => simp only [IsList] at hl; omega
  | cons p L =>
    obtain ⟨e, _, _⟩ := hl
    have := hb p (List.mem_cons_self p L)
    omega

theorem has_pages_walk_eq (m : Nat → Nat) (L : List Nat) :
    ∀ fuel h count, IsList m h L →
      has_pages_walk m fuel h count = if L.length ≤ fuel then some (count + L.length) else none := by
  induction L with
  | nil =>
    intro fuel h count hl
    simp only [IsList] at hl
    subst hl
    cases fuel <;> simp [has_pages_walk]
  | cons p L ih =>
    intro fuel h count hl
    obtain ⟨e, ne, t⟩ := hl
    subst e
    cases fuel with
    | zero => simp [has_pages_walk, ne]
    | succ fuel =>
      simp only [has_pages_walk, if_neg ne, ih fuel _ (count + 1) t, List.length_cons]
      by_cases hle : L.length ≤ fuel
      · rw [if_pos hle, if_pos (by omega)]; congr 1; omega
      · rw [if_neg hle, if_neg (by omega)]

/-! ## Pools as lists -/

theorem mem_pooled (cfg : Config) (pools : Nat → List Nat) (p : Nat) :
    p ∈ pooled cfg pools ↔ ∃ i, i < cfg.NCPU ∧ p ∈ pools i := by
  simp [pooled, List.mem_flatMap, List.mem_range]

theorem count_flatMap_range_update (pools : Nat → List Nat) (c : Nat) (L : List Nat) (p : Nat) :
    ∀ n, List.count p ((List.range n).flatMap (Function.update pools c L))
      + (if c < n then List.count p (pools c) else 0)
      = List.count p ((List.range n).flatMap pools) + (if c < n then List.count p L else 0) := by
  intro n
  induction n with
  | zero => simp
  | succ n ih =>
    simp only [List.range_succ, List.flatMap_append, List.count_append, List.flatMap_cons,
      List.flatMap_nil, List.append_nil]
    by_cases hc : c < n
    · have h1 : c < n + 1 := by omega
      have h2 : n ≠ c := by omega
      simp only [hc, h1, if_true] at ih ⊢
      rw [Function.update_noteq h2]
      omega
    · by_cases hcn : c = n
      · subst hcn
        simp only [Nat.lt_irrefl, if_false, Nat.add_zero] at ih
        simp only [Nat.lt_succ_self, if_true, Function.update_same]
        omega
      · have h1 : ¬ c < n + 1 := by omega
        have h2 : n ≠ c := by omega
        simp only [hc, h1, if_false] at ih ⊢
        rw [Function.update_noteq h2]
        omega

theorem count_pooled_update (cfg : Config) (pools : Nat → List Nat) (c : Nat) (L : List Nat)
    (p : Nat) (hc : c < cfg.NCPU) :
    List.count p (pooled cfg (Function.update pools c L)) + List.count p (pools c)
      = List.count p (pooled cfg pools) + List.count p L := by
  have h := count_flatMap_range_update pools c L p cfg.NCPU
  simp only [hc, if_true] at h
  exact h

theorem valid_page_ne_zero (cfg : Config) (hc : cfg.ok) (p : Nat) (h : valid_page cfg p) :
    p ≠ 0 := by
  obtain ⟨_, h2, _⟩ := h
  obtain ⟨_, h0, _⟩ := hc
  omega

theorem valid_page_lt (cfg : Config) (hc : cfg.ok) (p : Nat) (h : valid_page cfg p) :
    p < 2 ^ 64 := by
  obtain ⟨_, _, h3⟩ := h
  obtain ⟨_, _, h0⟩ := hc
  omega

theorem page_apart (p q k : Nat) (hp : p % PGSIZE = 0) (hq : q % PGSIZE = 0) (hne : q ≠ p)
    (hk : k < 8) : ¬ (p ≤ q + k ∧ q + k < p + PGSIZE) := by
  simp only [PGSIZE] at *
  omega

theorem Pools.head_lt {cfg : Config} {s : KState} {pools : Nat → List Nat}
    (hP : Pools cfg s pools) (hc : cfg.ok) (i : Nat) (hi : i < cfg.NCPU) :
    s.freelist i < 2 ^ 64 :=
  IsList_head_lt s.mem _ _ (hP.is_list i hi) fun q hq =>
    valid_page_lt cfg hc q (hP.is_valid q ((mem_pooled cfg pools q).2 ⟨i, hi, hq⟩))

theorem Pools.frame {cfg : Config} {s : KState} {pools : Nat → List Nat}
    (hP : Pools cfg s pools) (s' : KState) (P : Nat) (hal : P % PGSIZE = 0) (hnot : P ∉ pooled cfg pools)
    (hm : ∀ x, ¬ (P ≤ x ∧ x < P + PGSIZE) → s'.mem x = s.mem x)
    (hf : s'.freelist = s.freelist) : Pools cfg s' pools := by
  refine ⟨fun i hi => ?_, hP.is_valid, hP.nodup⟩
  rw [hf]
  refine IsList_frame s.mem s'.mem _ _ (fun q hq k hk => hm _ ?_) (hP.is_list i hi)
  have hqp : q ∈ pooled cfg pools := (mem_pooled cfg pools q).2 ⟨i, hi, hq⟩
  have hne : q ≠ P := fun e => hnot (e ▸ hqp)
  exact page_apart P q k hal (hP.is_valid q hqp).1 hne hk

theorem Pools.pop {cfg : Config} {s : KState} {pools : Nat → List Nat}
    (hP : Pools cfg s pools) (s' : KState) (c p : Nat) (rest : List Nat) (hc : c < cfg.NCPU)
    (hpc : pools c = p :: rest) (hm : s'.mem = s.mem)
    (hf : s'.freelist = Function.update s.freelist c (read64 s.mem p)) :
    Pools cfg s' (Function.update pools c rest) ∧ p ∉ pooled cfg (Function.update pools c rest) := by
  have hcount : ∀ q, List.count q (pooled cfg (Function.update pools c rest))
      + List.count q (p :: rest) = List.count q (pooled cfg pools) + List.count q rest := by
    intro q
    have := count_pooled_update cfg pools c rest q hc
    rw [hpc] at this
    exact this
  have hnd := List.nodup_iff_count_le_one.1 hP.nodup
  refine ⟨⟨fun i hi => ?_, fun q hq => ?_, ?_⟩, ?_⟩
  · rw [hm, hf]
    by_cases hic : i = c
    · subst hic
      have := hP.is_list i hi
      rw [hpc] at this
      simp only [Function.update_same]
      exact this.2.2
    · simp only [Function.update_noteq hic]
      exact hP.is_list i hi
  · apply hP.is_valid
    have h1 := hcount q
    have h2 : 0 < List.count q (pooled cfg (Function.update pools c rest)) :=
      List.count_pos_iff.2 hq
    have h3 : List.count q rest ≤ List.count q (p :: rest) := by
      rw [List.count_cons]; omega
    exact List.count_pos_iff.1 (by omega)
  · refine List.nodup_iff_count_le_one.2 fun q => ?_
    have h1 := hcount q
    have h2 := hnd q
    have h3 : List.count q rest ≤ List.count q (p :: rest) := by
      rw [List.count_cons]; omega
    omega
  · intro hmem
    have h1 := hcount p
    have h2 := hnd p
    have h3 : 0 < List.count p (pooled cfg (Function.update pools c rest)) :=
      List.count_pos_iff.2 hmem
    rw [List.count_cons_self] at h1
    omega

theorem Pools.push {cfg : Config} {s : KState} {pools : Nat → List Nat}
    (hP : Pools cfg s pools) (s' : KState) (hc : cfg.ok) (i P : Nat) (hi : i < cfg.NCPU)
    (hv : valid_page cfg P) (hnot : P ∉ pooled cfg pools)
    (hm : ∀ x, ¬ (P ≤ x ∧ x < P + PGSIZE) → s'.mem x = s.mem x)
    (hnext : read64 s'.mem P = s.freelist i)
    (hf : s'.freelist = Function.update s.freelist i P) :
    Pools cfg s' (Function.update pools i (P :: pools i)) := by
  have hcount : ∀ q, List.count q (pooled cfg (Function.update pools i (P :: pools i)))
      + List.count q (pools i) = List.count q (pooled cfg pools) + List.count q (P :: pools i) :=
    fun q => count_pooled_update cfg pools i (P :: pools i) q hi
  have hnd := List.nodup_iff_count_le_one.1 hP.nodup
  have hfr : ∀ j, j < cfg.NCPU → IsList s'.mem (s.freelist j) (pools j) := by
    intro j hj
    refine IsList_frame s.mem s'.mem _ _ (fun q hq k hk => hm _ ?_) (hP.is_list j hj)
    have hqp : q ∈ pooled cfg pools := (mem_pooled cfg pools q).2 ⟨j, hj, hq⟩
    have hne : q ≠ P := fun e => hnot (e ▸ hqp)
    exact page_apart P q k hv.1 (hP.is_valid q hqp).1 hne hk
  have hcount2 : ∀ q, List.count q (pooled cfg (Function.update pools i (P :: pools i)))
      = List.count q (pooled cfg pools) + if q = P then 1 else 0 := by
    intro q
    have h1 := hcount q
    rw [List.count_cons] at h1
    have h2 : (P == q) = decide (q = P) := by
      by_cases e : q = P
      · subst e; simp
      · have e2 : ¬ P = q := fun h => e h.symm
        simp [e, e2]
    rw [h2] at h1
    by_cases e : q = P
    · simp only [e, decide_True, if_true] at h1 ⊢; omega
    · simp only [e, decide_False, if_false] at h1 ⊢
      simp only [Bool.false_eq_true, if_false] at h1
      omega
  refine ⟨fun j hj => ?_, fun q hq => ?_, ?_⟩
  · rw [hf]
    by_cases hji : j = i
    · subst hji
      simp only [Function.update_same]
      refine ⟨rfl, valid_page_ne_zero cfg hc P hv, ?_⟩
      rw [hnext]
      exact hfr j hj
    · simp only [Function.update_noteq hji]
      exact hfr j hj
  · have h1 := hcount2 q
    have h2 := List.count_pos_iff.2 hq
    by_cases e : q = P
    · rw [e]; exact hv
    · simp only [e, if_false] at h1
      exact hP.is_valid q (List.count_pos_iff.1 (by omega))
  · refine List.nodup_iff_count_le_one.2 fun q => ?_
    have h1 := hcount2 q
    have h2 := hnd q
    by_cases e : q = P
    · have h3 : List.count P (pooled cfg pools) = 0 := List.count_eq_zero.2 hnot
      simp only [e, if_true] at h1 ⊢
      omega
    · simp only [e, if_false] at h1
      omega

/-! ## The free and steal steps -/

theorem kfree_cpu_ok (cfg : Config) (pa i : Nat) (s : KState) (hv : valid_page cfg pa) :
    kfree_cpu cfg pa i s = .ok ()
      ⟨write64 (memset s.mem pa 1 PGSIZE) pa (s.freelist i), Function.update s.freelist i pa,
        s.trace ++ [Ev.acquire i] ++ [Ev.release i]⟩ := by
  obtain ⟨h1, h2, h3⟩ := hv
  have hg : ¬ (pa % PGSIZE ≠ 0 ∨ pa < cfg.kend ∨ pa ≥ cfg.PHYSTOP) := by omega
  simp only [kfree_cpu, if_neg hg, acquire, release, set_next, set_freelist]

theorem kfree_cpu_panic (cfg : Config) (pa i : Nat) (s : KState) (hv : ¬ valid_page cfg pa) :
    kfree_cpu cfg pa i s = .panic "kfree_cpu" s := by
  have hg : pa % PGSIZE ≠ 0 ∨ pa < cfg.kend ∨ pa ≥ cfg.PHYSTOP := by
    simp only [valid_page] at hv; omega
  simp only [kfree_cpu, if_pos hg]

theorem kfree_ok (cfg : Config) (cpu pa : Nat) (s : KState) (hv : valid_page cfg pa) :
    kfree cfg cpu pa s = .ok ()
      ⟨write64 (memset s.mem pa 1 PGSIZE) pa (s.freelist cpu), Function.update s.freelist cpu pa,
        s.trace ++ [Ev.push_off] ++ [Ev.acquire cpu] ++ [Ev.release cpu] ++ [Ev.pop_off]⟩ := by
  obtain ⟨h1, h2, h3⟩ := hv
  have hg : ¬ (pa % PGSIZE ≠ 0 ∨ pa < cfg.kend ∨ pa ≥ cfg.PHYSTOP) := by omega
  simp only [kfree, if_neg hg, acquire, release, set_next, set_freelist, push_off, pop_off]

theorem kfree_panic (cfg : Config) (cpu pa : Nat) (s : KState) (hv : ¬ valid_page cfg pa) :
    kfree cfg cpu pa s = .panic "kfree" (push_off s) := by
  have hg : pa % PGSIZE ≠ 0 ∨ pa < cfg.kend ∨ pa ≥ cfg.PHYSTOP := by
    simp only [valid_page] at hv; omega
  simp only [kfree, if_pos hg]

/-- Memory after a free of page `P` differs from memory before only inside `P`. -/
theorem free_mem_outside (m : Nat → Nat) (P v x : Nat) (hx : ¬ (P ≤ x ∧ x < P + PGSIZE)) :
    write64 (memset m P 1 PGSIZE) P v x = m x := by
  rw [write64_outside _ _ _ _ (by simp only [PGSIZE] at hx; omega), memset_outside _ _ _ _ _ hx]

theorem write64_mem_outside (m : Nat → Nat) (P v x : Nat) (hx : ¬ (P ≤ x ∧ x < P + PGSIZE)) :
    write64 m P v x = m x :=
  write64_outside _ _ _ _ (by simp only [PGSIZE] at hx; omega)

/-- Pushing a valid page that is in no pool onto pool `i`, as `kfree_cpu` and `kfree` do. -/
theorem Pools.free {cfg : Config} {s : KState} {pools : Nat → List Nat}
    (hP : Pools cfg s pools) (s' : KState) (hc : cfg.ok) (i P : Nat) (hi : i < cfg.NCPU)
    (hv : valid_page cfg P) (hnot : P ∉ pooled cfg pools)
    (hm : s'.mem = write64 (memset s.mem P 1 PGSIZE) P (s.freelist i))
    (hf : s'.freelist = Function.update s.freelist i P) :
    Pools cfg s' (Function.update pools i (P :: pools i)) := by
  refine hP.push s' hc i P hi hv hnot (fun x hx => ?_) ?_ hf
  · rw [hm]; exact free_mem_outside _ _ _ _ hx
  · rw [hm]; exact read64_write64 _ _ _ (hP.head_lt hc i hi)

/-- One iteration of the loop of `steal_pages` on a source whose head is `p`. -/
theorem Pools.steal_one {cfg : Config} {s : KState} {pools : Nat → List Nat}
    (hP : Pools cfg s pools) (s' : KState) (hc : cfg.ok) (dest src p : Nat) (rest : List Nat)
    (hd : dest < cfg.NCPU) (hs : src < cfg.NCPU) (hne : dest ≠ src)
    (hsrc : pools src = p :: rest)
    (hm : s'.mem = write64 s.mem p (s.freelist dest))
    (hf : s'.freelist =
      Function.update (Function.update s.freelist src (read64 s.mem p)) dest p) :
    Pools cfg s' (Function.update (Function.update pools src rest) dest (p :: pools dest)) := by
  have hA := hP.pop (⟨s.mem, Function.update s.freelist src (read64 s.mem p), s.trace⟩)
    src p rest hs hsrc rfl rfl
  have hv : valid_page cfg p :=
    hP.is_valid p ((mem_pooled cfg pools p).2 ⟨src, hs, by rw [hsrc]; exact List.mem_cons_self p rest⟩)
  have hB := hA.1.push (s') hc dest p hd hv hA.2 (fun x hx => ?_) ?_ ?_
  · rw [Function.update_noteq hne] at hB
    exact hB
  · rw [hm]; exact write64_mem_outside _ _ _ _ hx
  · rw [hm]
    simp only [Function.update_noteq hne]
    exact read64_write64 _ _ _ (hP.head_lt hc dest hd)
  · rw [hf]

theorem steal_loop_ok (cfg : Config) (hc : cfg.ok) (dest src : Nat)
    (hd : dest < cfg.NCPU) (hs : src < cfg.NCPU) (hne : dest ≠ src) :
    ∀ n s pools, Pools cfg s pools → n ≤ (pools src).length →
      ∃ s', steal_loop dest src n s = .ok () s' ∧
        Pools cfg s' (Function.update (Function.update pools src ((pools src).drop n)) dest
          (((pools src).take n).reverse ++ pools dest)) := by
  intro n
  induction n with
  | zero =>
    intro s pools hP _
    refine ⟨s, rfl, ?_⟩
    have e : Function.update (Function.update pools src ((pools src).drop 0)) dest
        (((pools src).take 0).reverse ++ pools dest) = pools := by
      funext j
      have hsd : ¬ src = dest := fun h => hne h.symm
      simp only [Function.update_apply]
      by_cases hjd : j = dest
      · simp [hjd]
      · by_cases hjs : j = src
        · simp [hjs, hsd]
        · simp [hjd, hjs]
    rw [e]; exact hP
  | succ n ih =>
    intro s pools hP hlen
    cases hsrc : pools src with
    | nil => rw [hsrc] at hlen; simp at hlen
    | cons p rest =>
      have hl := hP.is_list src hs
      rw [hsrc] at hl
      obtain ⟨e, ne, _⟩ := hl
      have hr : ¬ s.freelist src = 0 := by omega
      have h1 := hP.steal_one
        (set_freelist dest (s.freelist src) (set_next (s.freelist src)
          ((set_freelist src (read64 s.mem (s.freelist src)) s).freelist dest)
          (set_freelist src (read64 s.mem (s.freelist src)) s)))
        hc dest src p rest hd hs hne hsrc
        (by rw [e]; simp only [set_freelist, set_next, Function.update_noteq hne])
        (by rw [e]; simp only [set_freelist, set_next])
      have hlen2 : n ≤ ((Function.update (Function.update pools src rest) dest
          (p :: pools dest)) src).length := by
        rw [Function.update_noteq (Ne.symm hne), Function.update_same]
        rw [hsrc] at hlen
        simp only [List.length_cons] at hlen
        omega
      obtain ⟨s', hs', hP'⟩ := ih _ _ h1 hlen2
      refine ⟨s', ?_, ?_⟩
      · simp only [steal_loop, if_neg hr]
        exact hs'
      · have e2 : Function.update (Function.update
            (Function.update (Function.update pools src rest) dest (p :: pools dest)) src
            (((Function.update (Function.update pools src rest) dest (p :: pools dest)) src).drop n))
            dest ((((Function.update (Function.update pools src rest) dest (p :: pools dest))
              src).take n).reverse ++
              (Function.update (Function.update pools src rest) dest (p :: pools dest)) dest)
            = Function.update (Function.update pools src ((p :: rest).drop (n + 1))) dest
              (((p :: rest).take (n + 1)).reverse ++ pools dest) := by
          funext j
          have hsd : ¬ src = dest := fun h => hne h.symm
          simp only [Function.update_apply]
          by_cases hjd : j = dest
          · simp [hjd, hsd]
          · by_cases hjs : j = src
            · simp [hjd, hjs, hsd]
            · simp [hjd, hjs]
        rw [e2] at hP'
        exact hP'

theorem steal_loop_fault (cfg : Config) (hc : cfg.ok) (dest src : Nat)
    (hd : dest < cfg.NCPU) (hs : src < cfg.NCPU) (hne : dest ≠ src) :
    ∀ n s pools, Pools cfg s pools → (pools src).length < n →
      ∃ s', steal_loop dest src n s = .fault s' := by
  intro n
  induction n with
  | zero => intro s pools _ h; omega
  | succ n ih =>
    intro s pools hP hlen
    cases hsrc : pools src with
    | nil =>
      have hl := hP.is_list src hs
      rw [hsrc] at hl
      simp only [IsList] at hl
      exact ⟨s, by simp only [steal_loop, if_pos hl]⟩
    | cons p rest =>
      have hl := hP.is_list src hs
      rw [hsrc] at hl
      obtain ⟨e, ne, _⟩ := hl
      have hr : ¬ s.freelist src = 0 := by omega
      have h1 := hP.steal_one
        (set_freelist dest (s.freelist src) (set_next (s.freelist src)
          ((set_freelist src (read64 s.mem (s.freelist src)) s).freelist dest)
          (set_freelist src (read64 s.mem (s.freelist src)) s)))
        hc dest src p rest hd hs hne hsrc
        (by rw [e]; simp only [set_freelist, set_next, Function.update_noteq hne])
        (by rw [e]; simp only [set_freelist, set_next])
      have hlen2 : ((Function.update (Function.update pools src rest) dest
          (p :: pools dest)) src).length < n := by
        rw [Function.update_noteq (Ne.symm hne), Function.update_same]
        rw [hsrc] at hlen
        simp only [List.length_cons] at hlen
        omega
      obtain ⟨s', hs'⟩ := ih _ _ h1 hlen2
      exact ⟨s', by simp only [steal_loop, if_neg hr]; exact hs'⟩

theorem Pools.congr {cfg : Config} {s s' : KState} {pools : Nat → List Nat}
    (hP : Pools cfg s pools) (hm : s'.mem = s.mem) (hf : s'.freelist = s.freelist) :
    Pools cfg s' pools :=
  ⟨fun i hi => by rw [hm, hf]; exact hP.is_list i hi, hP.is_valid, hP.nodup⟩

theorem steal_pages_ok (cfg : Config) (hc : cfg.ok) (dest src n : Nat)
    (hd : dest < cfg.NCPU) (hs : src < cfg.NCPU) (hne : dest ≠ src)
    (s : KState) (pools : Nat → List Nat) (hP : Pools cfg s pools)
    (hlen : n ≤ (pools src).length) :
    ∃ s', steal_pages dest src n s = .ok () s' ∧
      Pools cfg s' (Function.update (Function.update pools src ((pools src).drop n)) dest
        (((pools src).take n).reverse ++ pools dest)) := by
  have h0 : Pools cfg (acquire src (acquire dest s)) pools := hP.congr rfl rfl
  obtain ⟨s1, h1, hP1⟩ := steal_loop_ok cfg hc dest src hd hs hne n _ pools h0 hlen
  refine ⟨release dest (release src s1), ?_, hP1.congr rfl rfl⟩
  simp only [steal_pages, if_neg hne, h1, Res.bind]

theorem steal_pages_fault (cfg : Config) (hc : cfg.ok) (dest src n : Nat)
    (hd : dest < cfg.NCPU) (hs : src < cfg.NCPU) (hne : dest ≠ src)
    (s : KState) (pools : Nat → List Nat) (hP : Pools cfg s pools)
    (hlen : (pools src).length < n) :
    ∃ s', steal_pages dest src n s = .fault s' := by
  have h0 : Pools cfg (acquire src (acquire dest s)) pools := hP.congr rfl rfl
  obtain ⟨s1, h1⟩ := steal_loop_fault cfg hc dest src hd hs hne n _ pools h0 hlen
  exact ⟨s1, by simp only [steal_pages, if_neg hne, h1, Res.bind]⟩

theorem has_pages_ok (fuel cpu n : Nat) (s : KState) (L : List Nat)
    (hl : IsList s.mem (s.freelist cpu) L) (hf : L.length ≤ fuel) :
    has_pages fuel cpu n s = .ok (if L.length = n then 1 else 0) (release cpu (acquire cpu s)) := by
  have h := has_pages_walk_eq s.mem L fuel (s.freelist cpu) 0 hl
  rw [if_pos hf, Nat.zero_add] at h
  simp only [has_pages, acquire, h, release]

theorem has_pages_timeout (fuel cpu n : Nat) (s : KState) (L : List Nat)
    (hl : IsList s.mem (s.freelist cpu) L) (hf : fuel < L.length) :
    has_pages fuel cpu n s = .timeout := by
  have h := has_pages_walk_eq s.mem L fuel (s.freelist cpu) 0 hl
  rw [if_neg (by omega)] at h
  simp only [has_pages, acquire, h]

theorem kalloc_pop_null (c : Nat) (s : KState) (h : s.freelist c = 0) :
    kalloc_pop c s = (0, release c (acquire c s)) := by
  simp [kalloc_pop, acquire, h]

theorem kalloc_pop_head (c : Nat) (s : KState) (h : s.freelist c ≠ 0) :
    kalloc_pop c s = (s.freelist c,
      release c (set_freelist c (read64 s.mem (s.freelist c)) (acquire c s))) := by
  simp [kalloc_pop, acquire, h]

/-! ## The scan of `kalloc` -/

theorem next_neighbor_lt (cfg : Config) (hc : cfg.ok) (c i : Nat) :
    next_neighbor cfg c i < cfg.NCPU :=
  Nat.mod_lt _ hc.1

theorem kalloc_scan_spec (cfg : Config) (hc : cfg.ok) (fuel c : Nat) (hcN : c < cfg.NCPU) :
    ∀ rem i s pools, Pools cfg s pools → pools c = [] →
      (∃ k p s', k < rem ∧
          (∀ k', k' < k → (pools (next_neighbor cfg c (i + k'))).length ≠ 1 ∧
            (pools (next_neighbor cfg c (i + k'))).length ≤ fuel) ∧
          pools (next_neighbor cfg c (i + k)) = [p] ∧
          kalloc_scan cfg fuel c rem i s = .ok p s' ∧ p ≠ 0 ∧
          Pools cfg s' (Function.update pools (next_neighbor cfg c (i + k)) []) ∧
          p ∉ pooled cfg (Function.update pools (next_neighbor cfg c (i + k)) []))
      ∨ ((∀ k, k < rem → (pools (next_neighbor cfg c (i + k))).length ≠ 1 ∧
            (pools (next_neighbor cfg c (i + k))).length ≤ fuel) ∧
          ∃ s', kalloc_scan cfg fuel c rem i s = .ok 0 s' ∧ s'.mem = s.mem ∧
            s'.freelist = s.freelist)
      ∨ (∃ k, k < rem ∧
          (∀ k', k' < k → (pools (next_neighbor cfg c (i + k'))).length ≠ 1 ∧
            (pools (next_neighbor cfg c (i + k'))).length ≤ fuel) ∧
          fuel < (pools (next_neighbor cfg c (i + k))).length ∧
          kalloc_scan cfg fuel c rem i s = .timeout) := by
  intro rem
  induction rem with
  | zero =>
    intro i s pools _ _
    exact Or.inr (Or.inl ⟨fun k hk => absurd hk (Nat.not_lt_zero k), s, rfl, rfl, rfl⟩)
  | succ rem ih =>
    intro i s pools hP hempty
    have hj := next_neighbor_lt cfg hc c i
    have hl := hP.is_list _ hj
    have hc0 : s.freelist c = 0 := by
      have := hP.is_list c hcN
      rw [hempty] at this
      exact this
    by_cases hfu : (pools (next_neighbor cfg c i)).length ≤ fuel
    · by_cases h1 : (pools (next_neighbor cfg c i)).length = 1
      · -- the probed pool holds exactly one page: it is stolen and returned
        obtain ⟨p, hp⟩ := List.length_eq_one.1 h1
        have hjc : c ≠ next_neighbor cfg c i := by
          intro e
          rw [← e, hempty] at hp
          exact List.noConfusion hp
        have hprobe := has_pages_ok fuel _ 1 s _ hl hfu
        rw [if_pos h1] at hprobe
        have hP1 : Pools cfg (release (next_neighbor cfg c i) (acquire (next_neighbor cfg c i) s))
            pools := hP.congr rfl rfl
        obtain ⟨s2, hsteal, hP2⟩ := steal_pages_ok cfg hc c _ 1 hcN hj hjc _ pools hP1
          (by omega)
        rw [hp, hempty] at hP2
        simp only [List.drop_succ_cons, List.drop_zero, List.take_succ_cons, List.take_zero,
          List.reverse_cons, List.reverse_nil, List.nil_append, List.append_nil] at hP2
        have hl2 := hP2.is_list c hcN
        rw [Function.update_same] at hl2
        obtain ⟨e2, ne2, _⟩ := hl2
        have hne2 : s2.freelist c ≠ 0 := by omega
        have hpop := kalloc_pop_head c s2 hne2
        have hP3 := hP2.pop
          (release c (set_freelist c (read64 s2.mem (s2.freelist c)) (acquire c s2)))
          c p [] hcN (by rw [Function.update_same]) rfl (by rw [e2]; rfl)
        have eq3 : Function.update (Function.update (Function.update pools
            (next_neighbor cfg c i) []) c [p]) c [] =
            Function.update pools (next_neighbor cfg c i) [] := by
          funext x
          simp only [Function.update_apply]
          by_cases hx : x = c
          · simp [hx, hjc, hempty]
          · simp [hx]
        rw [eq3] at hP3
        refine Or.inl ⟨0, p, _, Nat.succ_pos rem, fun k hk => absurd hk (Nat.not_lt_zero k),
          hp, ?_, ne2, hP3.1, hP3.2⟩
        simp only [kalloc_scan, hprobe, Res.bind]
        simp [hsteal, Res.bind, hpop, e2, ne2]
      · -- the probed pool is not stolen from; the local pool is still empty
        have hprobe := has_pages_ok fuel _ 1 s _ hl hfu
        rw [if_neg h1] at hprobe
        have hP1 : Pools cfg (release (next_neighbor cfg c i) (acquire (next_neighbor cfg c i) s))
            pools := hP.congr rfl rfl
        have hpop := kalloc_pop_null c
          (release (next_neighbor cfg c i) (acquire (next_neighbor cfg c i) s)) hc0
        have hP2 : Pools cfg (release c (acquire c
            (release (next_neighbor cfg c i) (acquire (next_neighbor cfg c i) s)))) pools :=
          hP.congr rfl rfl
        have hstep : kalloc_scan cfg fuel c (rem + 1) i s =
            kalloc_scan cfg fuel c rem (i + 1) (release c (acquire c
              (release (next_neighbor cfg c i) (acquire (next_neighbor cfg c i) s)))) := by
          simp only [kalloc_scan, hprobe, Res.bind]
          simp [Res.bind, hpop]
        have hshift : ∀ k, i + 1 + k = i + (k + 1) := fun k => by omega
        have hfirst : ∀ k, (∀ k', k' < k →
            (pools (next_neighbor cfg c (i + 1 + k'))).length ≠ 1 ∧
            (pools (next_neighbor cfg c (i + 1 + k'))).length ≤ fuel) →
            ∀ k', k' < k + 1 → (pools (next_neighbor cfg c (i + k'))).length ≠ 1 ∧
              (pools (next_neighbor cfg c (i + k'))).length ≤ fuel := by
          intro k hall k' hk'
          cases k' with
          | zero => exact ⟨h1, hfu⟩
          | succ k' =>
            have := hall k' (by omega)
            rw [hshift] at this
            exact this
        rcases ih (i + 1) _ pools hP2 hempty with
          ⟨k, p, s', hk, hall, hp, hrun, hne, hP', hnot⟩ | ⟨hall, s', hrun, hm, hf⟩ |
          ⟨k, hk, hall, hlong, hrun⟩
        · rw [hshift] at hp hP' hnot
          exact Or.inl ⟨k + 1, p, s', by omega, hfirst k hall, hp, by rw [hstep]; exact hrun,
            hne, hP', hnot⟩
        · exact Or.inr (Or.inl ⟨hfirst rem hall, s', by rw [hstep]; exact hrun, hm, hf⟩)
        · rw [hshift] at hlong
          exact Or.inr (Or.inr ⟨k + 1, by omega, hfirst k hall, hlong,
            by rw [hstep]; exact hrun⟩)
    · -- the walk over the probed pool does not finish within the bound
      have hprobe := has_pages_timeout fuel _ 1 s _ hl (by omega)
      refine Or.inr (Or.inr ⟨0, Nat.succ_pos rem, fun k hk => absurd hk (Nat.not_lt_zero k),
        by rw [Nat.add_zero]; omega, ?_⟩)
      simp only [kalloc_scan, hprobe, Res.bind]

theorem memset_page_outside (m : Nat → Nat) (P c x : Nat) (hx : ¬ (P ≤ x ∧ x < P + PGSIZE)) :
    memset m P c PGSIZE x = m x :=
  memset_outside _ _ _ _ _ hx

/-- What a call of `kalloc` on core `c` does to a state that holds the lists `pools`:
it returns the head of the local pool, or the only page of a probed pool, or 0 with
memory and heads untouched, or it does not finish a walk within `fuel` steps. -/
theorem kalloc_spec (cfg : Config) (hc : cfg.ok) (fuel c : Nat) (hcN : c < cfg.NCPU)
    (s : KState) (pools : Nat → List Nat) (hP : Pools cfg s pools) :
    (∃ j p rest s', j < cfg.NCPU ∧ pools j = p :: rest ∧ (j = c ∨ (pools c = [] ∧ rest = [])) ∧
        kalloc cfg fuel c s = .ok p s' ∧ p ≠ 0 ∧
        Pools cfg s' (Function.update pools j rest) ∧
        p ∉ pooled cfg (Function.update pools j rest))
    ∨ (pools c = [] ∧ (∀ k, k < cfg.NCPU → (pools (next_neighbor cfg c k)).length ≠ 1) ∧
        ∃ s', kalloc cfg fuel c s = .ok 0 s' ∧ s'.mem = s.mem ∧ s'.freelist = s.freelist)
    ∨ (pools c = [] ∧ (∃ j, j < cfg.NCPU ∧ fuel < (pools j).length) ∧
        kalloc cfg fuel c s = .timeout) := by
  have hl := hP.is_list c hcN
  cases hpc : pools c with
  | cons p rest =>
    rw [hpc] at hl
    obtain ⟨e, ne, _⟩ := hl
    have hne : (push_off s).freelist c ≠ 0 := by
      show s.freelist c ≠ 0
      omega
    have hpop := kalloc_pop_head c (push_off s) hne
    have hP1 := hP.pop
      (release c (set_freelist c (read64 (push_off s).mem ((push_off s).freelist c))
        (acquire c (push_off s))))
      c p rest hcN hpc rfl (by rw [← e]; rfl)
    have hv : valid_page cfg p := hP.is_valid p
      ((mem_pooled cfg pools p).2 ⟨c, hcN, by rw [hpc]; exact List.mem_cons_self p rest⟩)
    have hP2 := hP1.1.frame
      (pop_off { (release c (set_freelist c (read64 (push_off s).mem
          ((push_off s).freelist c)) (acquire c (push_off s)))) with
        mem := memset (release c (set_freelist c (read64 (push_off s).mem
          ((push_off s).freelist c)) (acquire c (push_off s)))).mem p 5 PGSIZE })
      p hv.1 hP1.2 (fun x hx => memset_page_outside _ _ _ _ hx) rfl
    refine Or.inl ⟨c, p, rest, _, hcN, hpc, Or.inl rfl, ?_, ne, hP2, hP1.2⟩
    have e' : (push_off s).freelist c = p := e
    simp only [kalloc, hpop, Res.bind]
    simp [e', ne, Res.bind]
  | nil =>
    rw [hpc] at hl
    have h0 : (push_off s).freelist c = 0 := hl
    have hpop := kalloc_pop_null c (push_off s) h0
    have hP1 : Pools cfg (release c (acquire c (push_off s))) pools := hP.congr rfl rfl
    have hrun : kalloc cfg fuel c s =
        (kalloc_scan cfg fuel c cfg.NCPU 0 (release c (acquire c (push_off s)))).bind
          fun r s =>
            .ok r (pop_off (if r ≠ 0 then { s with mem := memset s.mem r 5 PGSIZE } else s)) := by
      simp only [kalloc, hpop]
      simp
    rcases kalloc_scan_spec cfg hc fuel c hcN cfg.NCPU 0 _ pools hP1 hpc with
      ⟨k, p, s', _, _, hp, hscan, hne, hP', hnot⟩ | ⟨hall, s', hscan, hm, hf⟩ |
      ⟨k, _, _, hlong, hscan⟩
    · have hj := next_neighbor_lt cfg hc c (0 + k)
      have hv : valid_page cfg p := hP.is_valid p
        ((mem_pooled cfg pools p).2 ⟨_, hj, by rw [hp]; exact List.mem_cons_self p []⟩)
      have hP2 := hP'.frame (pop_off { s' with mem := memset s'.mem p 5 PGSIZE })
        p hv.1 hnot (fun x hx => memset_page_outside _ _ _ _ hx) rfl
      refine Or.inl ⟨_, p, [], _, hj, hp, Or.inr ⟨rfl, rfl⟩, ?_, hne, hP2, hnot⟩
      rw [hrun, hscan]
      simp [Res.bind, hne]
    · refine Or.inr (Or.inl ⟨rfl, fun k hk => ?_, pop_off s', ?_, hm, hf⟩)
      · have := (hall k hk).1
        rw [Nat.zero_add] at this
        exact this
      · rw [hrun, hscan]
        simp [Res.bind]
    · refine Or.inr (Or.inr ⟨rfl, ⟨_, next_neighbor_lt cfg hc c (0 + k), hlong⟩, ?_⟩)
      rw [hrun, hscan]
      rfl

/-! ## The concrete scenario -/

theorem demo_state_pools : Pools demo_cfg demo_state demo_pools := by
  refine ⟨fun i hi => ?_, fun p hp => ?_, ?_⟩
  · have hi2 : i < 2 := hi
    interval_cases i
    · simp [demo_state, demo_pools, IsList]
    · simp [demo_state, demo_pools, IsList, read64, write64]
  · have : p = 0x4000 ∨ p = 0x2000 := by
      simpa [pooled, demo_cfg, demo_pools, List.range_succ] using hp
    rcases this with e | e <;> subst e <;> simp [valid_page, demo_cfg, PGSIZE]
  · simp [pooled, demo_cfg, demo_pools, List.range_succ]

theorem demo_cfg_ok : demo_cfg.ok := by
  simp [Config.ok, demo_cfg]

/-! ## Claims about `kalloc`, `steal_pages` and the free functions -/

theorem pooled_nil (cfg : Config) : pooled cfg (fun _ => []) = [] := by
  simp [pooled]

theorem Pools.empty (cfg : Config) (s : KState) (h : ∀ i, i < cfg.NCPU → s.freelist i = 0) :
    Pools cfg s (fun _ => []) := by
  refine ⟨fun i hi => h i hi, fun p hp => ?_, ?_⟩
  · rw [pooled_nil] at hp
    exact absurd hp (List.not_mem_nil p)
  · rw [pooled_nil]
    exact List.nodup_nil

/-- With an empty source pool, `steal_pages(0, 1, 1)` does not move zero pages and return;
it dereferences the null head of the source list and traps. -/
theorem steal_pages_traps_on_empty_source :
    Pools demo_cfg (boot fun _ => 0) (fun _ => []) ∧
      ∃ s', steal_pages 0 1 1 (boot fun _ => 0) = .fault s' := by
  exact ⟨Pools.empty demo_cfg _ fun _ _ => rfl, _, rfl⟩

/-- On a source pool that holds at least `count` pages, and for `dest ≠ src`,
`steal_pages(dest, src, count)` returns normally and moves exactly `count` pages, which
is then `min(count, length of src)`, from the source to the destination; every other
pool keeps its list. -/
theorem steal_pages_moves_count_when_supplied (cfg : Config) (hc : cfg.ok) (s : KState)
    (pools : Nat → List Nat) (hP : Pools cfg s pools) (dest src count : Nat)
    (hd : dest < cfg.NCPU) (hs : src < cfg.NCPU) (hne : dest ≠ src)
    (hlen : count ≤ (pools src).length) :
    ∃ s' pools', steal_pages dest src count s = .ok () s' ∧ Pools cfg s' pools' ∧
      (pools' src).length + min count (pools src).length = (pools src).length ∧
      (pools' dest).length = (pools dest).length + min count (pools src).length ∧
      ∀ j, j ≠ src → j ≠ dest → pools' j = pools j := by
  obtain ⟨s', hrun, hP'⟩ := steal_pages_ok cfg hc dest src count hd hs hne s pools hP hlen
  refine ⟨s', _, hrun, hP', ?_, ?_, fun j hjs hjd => ?_⟩
  · rw [Function.update_noteq (Ne.symm hne), Function.update_same, List.length_drop]
    omega
  · rw [Function.update_same, List.length_append, List.length_reverse, List.length_take]
    omega
  · rw [Function.update_noteq hjd, Function.update_noteq hjs]

theorem steal_pages_moves_count_when_supplied_witness :
    ∃ s' pools', steal_pages 0 1 1 demo_state = .ok () s' ∧ Pools demo_cfg s' pools' ∧
      (pools' 1).length + min 1 (demo_pools 1).length = (demo_pools 1).length ∧
      (pools' 0).length = (demo_pools 0).length + min 1 (demo_pools 1).length ∧
      ∀ j, j ≠ 1 → j ≠ 0 → pools' j = demo_pools j :=
  steal_pages_moves_count_when_supplied demo_cfg demo_cfg_ok demo_state demo_pools
    demo_state_pools 0 1 1 (by decide) (by decide) (by decide) (by decide)

/-- C4: for `dest ≠ src` and every `k` (so for every `k ≥ 1`), when the source pool holds
at least `k` pages, `steal_pages(dest, src, k)` leaves the source with its list minus the
first `k` pages and the destination with those `k` pages in reversed order in front of
its old list; the
source is `k` shorter, the destination `k` longer, every other pool is unchanged. -/
theorem steal_pages_conservation (cfg : Config) (hc : cfg.ok) (s : KState)
    (pools : Nat → List Nat) (hP : Pools cfg s pools) (dest src k : Nat)
    (hd : dest < cfg.NCPU) (hs : src < cfg.NCPU) (hne : dest ≠ src)
    (hlen : k ≤ (pools src).length) :
    ∃ s' pools', steal_pages dest src k s = .ok () s' ∧ Pools cfg s' pools' ∧
      pools' src = (pools src).drop k ∧
      pools' dest = ((pools src).take k).reverse ++ pools dest ∧
      (pools' src).length + k = (pools src).length ∧
      (pools' dest).length = (pools dest).length + k ∧
      ∀ j, j ≠ src → j ≠ dest → pools' j = pools j := by
  obtain ⟨s', hrun, hP'⟩ := steal_pages_ok cfg hc dest src k hd hs hne s pools hP hlen
  refine ⟨s', _, hrun, hP', ?_, ?_, ?_, ?_, fun j hjs hjd => ?_⟩
  · rw [Function.update_noteq (Ne.symm hne), Function.update_same]
  · rw [Function.update_same]
  · rw [Function.update_noteq (Ne.symm hne), Function.update_same, List.length_drop]
    omega
  · rw [Function.update_same, List.length_append, List.length_reverse, List.length_take]
    omega
  · rw [Function.update_noteq hjd, Function.update_noteq hjs]

theorem steal_pages_conservation_witness :
    ∃ s' pools', steal_pages 0 1 2 demo_state = .ok () s' ∧ Pools demo_cfg s' pools' ∧
      pools' 1 = (demo_pools 1).drop 2 ∧
      pools' 0 = ((demo_pools 1).take 2).reverse ++ demo_pools 0 ∧
      (pools' 1).length + 2 = (demo_pools 1).length ∧
      (pools' 0).length = (demo_pools 0).length + 2 ∧
      ∀ j, j ≠ 1 → j ≠ 0 → pools' j = demo_pools j :=
  steal_pages_conservation demo_cfg demo_cfg_ok demo_state demo_pools
    demo_state_pools 0 1 2 (by decide) (by decide) (by decide) (by decide)

/-- C5: `kfree_cpu(pa, id)` and `kfree(pa)` call `panic` if and only if `pa` is not a
multiple of 4096 or lies outside `[end, PHYSTOP)`; the call of `panic` ends the run
(it happens once), and at that point memory and every `freelist` head are as before. -/
theorem free_panics_iff_invalid (cfg : Config) (cpu id pa : Nat) (s : KState) :
    ((∃ msg s', kfree_cpu cfg pa id s = .panic msg s') ↔
        (pa % 4096 ≠ 0 ∨ pa < cfg.kend ∨ cfg.PHYSTOP ≤ pa)) ∧
    ((∃ msg s', kfree cfg cpu pa s = .panic msg s') ↔
        (pa % 4096 ≠ 0 ∨ pa < cfg.kend ∨ cfg.PHYSTOP ≤ pa)) ∧
    (∀ msg s', kfree_cpu cfg pa id s = .panic msg s' →
        s'.mem = s.mem ∧ s'.freelist = s.freelist) ∧
    (∀ msg s', kfree cfg cpu pa s = .panic msg s' →
        s'.mem = s.mem ∧ s'.freelist = s.freelist) := by
  by_cases hv : valid_page cfg pa
  · have hcond : ¬ (pa % 4096 ≠ 0 ∨ pa < cfg.kend ∨ cfg.PHYSTOP ≤ pa) := by
      obtain ⟨h1, h2, h3⟩ := hv
      simp only [PGSIZE] at h1
      omega
    rw [kfree_cpu_ok cfg pa id s hv, kfree_ok cfg cpu pa s hv]
    refine ⟨⟨fun ⟨_, _, h⟩ => Res.noConfusion h, fun h => absurd h hcond⟩,
      ⟨fun ⟨_, _, h⟩ => Res.noConfusion h, fun h => absurd h hcond⟩,
      fun _ _ h => Res.noConfusion h, fun _ _ h => Res.noConfusion h⟩
  · have hcond : pa % 4096 ≠ 0 ∨ pa < cfg.kend ∨ cfg.PHYSTOP ≤ pa := by
      simp only [valid_page, PGSIZE] at hv
      omega
    rw [kfree_cpu_panic cfg pa id s hv, kfree_panic cfg cpu pa s hv]
    refine ⟨⟨fun _ => hcond, fun _ => ⟨_, _, rfl⟩⟩, ⟨fun _ => hcond, fun _ => ⟨_, _, rfl⟩⟩,
      fun _ _ h => ?_, fun _ _ h => ?_⟩
    · injection h with _ h2
      subst h2
      exact ⟨rfl, rfl⟩
    · injection h with _ h2
      subst h2
      exact ⟨rfl, rfl⟩

theorem kalloc_scan_all_empty (cfg : Config) (fuel c : Nat) (hcN : c < cfg.NCPU) :
    ∀ rem i s, (∀ j, j < cfg.NCPU → s.freelist j = 0) →
      ∃ s', kalloc_scan cfg fuel c rem i s = .ok 0 s' ∧ s'.mem = s.mem ∧
        s'.freelist = s.freelist := by
  intro rem
  induction rem with
  | zero => intro i s _; exact ⟨s, rfl, rfl, rfl⟩
  | succ rem ih =>
    intro i s h0
    have hj : next_neighbor cfg c i < cfg.NCPU := Nat.mod_lt _ (by omega)
    have hl : IsList s.mem (s.freelist (next_neighbor cfg c i)) [] := h0 _ hj
    have hprobe := has_pages_ok fuel _ 1 s [] hl (Nat.zero_le fuel)
    have hpop := kalloc_pop_null c
      (release (next_neighbor cfg c i) (acquire (next_neighbor cfg c i) s)) (h0 c hcN)
    obtain ⟨s', hrun, hm, hf⟩ := ih (i + 1) (release c (acquire c
      (release (next_neighbor cfg c i) (acquire (next_neighbor cfg c i) s)))) h0
    refine ⟨s', ?_, hm, hf⟩
    simp only [kalloc_scan, hprobe, Res.bind]
    simp [Res.bind, hpop, hrun]

theorem read64_write64_mod (m : Nat → Nat) (a v : Nat) :
    read64 (write64 m a v) a = v % 2 ^ 64 := by
  simp [read64, write64]
  omega

theorem write64_inside (m : Nat → Nat) (a v k : Nat) (hk : k < 8) :
    write64 m a v (a + k) = v / 256 ^ k % 256 := by
  simp [write64, hk]

/-- C6: when every `kmem[i].freelist` is null, `kalloc` on any core returns 0; it neither
panics nor traps, and memory and every `freelist` head are as before. -/
theorem kalloc_out_of_memory (cfg : Config) (fuel c : Nat) (s : KState)
    (hcN : c < cfg.NCPU) (hempty : ∀ i, i < cfg.NCPU → s.freelist i = 0) :
    ∃ s', kalloc cfg fuel c s = .ok 0 s' ∧ s'.mem = s.mem ∧ s'.freelist = s.freelist := by
  have hpop := kalloc_pop_null c (push_off s) (hempty c hcN)
  obtain ⟨s1, hrun, hm, hf⟩ := kalloc_scan_all_empty cfg fuel c hcN cfg.NCPU 0
    (release c (acquire c (push_off s))) hempty
  refine ⟨pop_off s1, ?_, hm, hf⟩
  simp only [kalloc, hpop]
  simp [hrun, Res.bind]

theorem kalloc_out_of_memory_witness :
    ∃ s', kalloc demo_cfg 0 1 (boot fun _ => 7) = .ok 0 s' ∧ s'.mem = (boot fun _ => 7).mem ∧
      s'.freelist = (boot fun _ => 7).freelist :=
  kalloc_out_of_memory demo_cfg 0 1 (boot fun _ => 7) (by decide) (fun _ _ => rfl)

theorem kalloc_after_free (cfg : Config) (hc : cfg.ok) (s : KState)
    (pools : Nat → List Nat) (hP : Pools cfg s pools) (s1 : KState) (P i fuel : Nat)
    (hi : i < cfg.NCPU)
    (hv : valid_page cfg P) (hnot : P ∉ pooled cfg pools)
    (hm : s1.mem = write64 (memset s.mem P 1 PGSIZE) P (s.freelist i))
    (hf : s1.freelist = Function.update s.freelist i P) :
    ∃ s2, kalloc cfg fuel i s1 = .ok P s2 ∧ s2.freelist = s.freelist ∧ Pools cfg s2 pools := by
  have hP0 := valid_page_ne_zero cfg hc P hv
  have hhead : (push_off s1).freelist i = P := by
    show s1.freelist i = P
    rw [hf, Function.update_same]
  have hne : (push_off s1).freelist i ≠ 0 := by rw [hhead]; exact hP0
  have hpop := kalloc_pop_head i (push_off s1) hne
  have hnext : read64 s1.mem P = s.freelist i := by
    rw [hm]; exact read64_write64 _ _ _ (hP.head_lt hc i hi)
  have hfl : Function.update s1.freelist i (read64 s1.mem P) = s.freelist := by
    rw [hnext, hf, Function.update_idem, Function.update_eq_self]
  refine ⟨pop_off { (release i (set_freelist i (read64 (push_off s1).mem
      ((push_off s1).freelist i)) (acquire i (push_off s1)))) with
      mem := memset (release i (set_freelist i (read64 (push_off s1).mem
        ((push_off s1).freelist i)) (acquire i (push_off s1)))).mem P 5 PGSIZE }, ?_, ?_, ?_⟩
  · simp only [kalloc, hpop]
    simp [hhead, hP0, Res.bind]
  · show Function.update s1.freelist i (read64 s1.mem (s1.freelist i)) = s.freelist
    have : s1.freelist i = P := hhead
    rw [this]; exact hfl
  · refine hP.frame _ P hv.1 hnot (fun x hx => ?_) ?_
    · show memset s1.mem P 5 PGSIZE x = s.mem x
      rw [memset_page_outside _ _ _ _ hx, hm]
      exact free_mem_outside _ _ _ _ hx
    · show Function.update s1.freelist i (read64 s1.mem (s1.freelist i)) = s.freelist
      have : s1.freelist i = P := hhead
      rw [this]; exact hfl

/-- C7 (counterexample): page `0x4000` is a valid page that is still the head of pool 1.
Freeing it to pool 0 and allocating on core 0 returns `0x4000`, but pool 1 is not
restored: its head `0x4000` no longer links to `0x2000`. -/
theorem round_trip_on_pooled_page_breaks_pool :
    valid_page demo_cfg 0x4000 ∧ Pools demo_cfg demo_state demo_pools ∧
      demo_pools 1 = [0x4000, 0x2000] ∧
      ∃ s1 s2, kfree_cpu demo_cfg 0x4000 0 demo_state = .ok () s1 ∧
        kalloc demo_cfg 2 0 s1 = .ok 0x4000 s2 ∧
        ¬ IsList s2.mem (s2.freelist 1) (demo_pools 1) :=
  ⟨by decide, demo_state_pools, rfl, _, _, rfl, rfl, by decide⟩

/-- C7 (amended): freeing a valid page `P` that is in no pool (a page a caller holds) to
pool `i`, through `kfree_cpu(P, i)` or through `kfree(P)` on core `i`, and then calling
`kalloc` on core `i` returns exactly `P`; afterwards every `freelist` head and every
pool's list is what it was before the free (also when pool `i` was empty). -/
theorem free_then_alloc_round_trip (cfg : Config) (hc : cfg.ok) (s : KState)
    (pools : Nat → List Nat) (hP : Pools cfg s pools) (P i fuel : Nat) (hi : i < cfg.NCPU)
    (hv : valid_page cfg P) (hnot : P ∉ pooled cfg pools) :
    (∃ s1 s2, kfree_cpu cfg P i s = .ok () s1 ∧ kalloc cfg fuel i s1 = .ok P s2 ∧
        s2.freelist = s.freelist ∧ Pools cfg s2 pools) ∧
    (∃ s1 s2, kfree cfg i P s = .ok () s1 ∧ kalloc cfg fuel i s1 = .ok P s2 ∧
        s2.freelist = s.freelist ∧ Pools cfg s2 pools) := by
  constructor
  · obtain ⟨s2, h2⟩ := kalloc_after_free cfg hc s pools hP
      (⟨write64 (memset s.mem P 1 PGSIZE) P (s.freelist i),
        Function.update s.freelist i P, s.trace ++ [Ev.acquire i] ++ [Ev.release i]⟩)
      P i fuel hi hv hnot rfl rfl
    exact ⟨_, s2, kfree_cpu_ok cfg P i s hv, h2⟩
  · obtain ⟨s2, h2⟩ := kalloc_after_free cfg hc s pools hP
      (⟨write64 (memset s.mem P 1 PGSIZE) P (s.freelist i),
        Function.update s.freelist i P,
        s.trace ++ [Ev.push_off] ++ [Ev.acquire i] ++ [Ev.release i] ++ [Ev.pop_off]⟩)
      P i fuel hi hv hnot rfl rfl
    exact ⟨_, s2, kfree_ok cfg i P s hv, h2⟩

theorem free_then_alloc_round_trip_witness :
    (∃ s1 s2, kfree_cpu demo_cfg 0x3000 0 demo_state = .ok () s1 ∧
        kalloc demo_cfg 0 0 s1 = .ok 0x3000 s2 ∧
        s2.freelist = demo_state.freelist ∧ Pools demo_cfg s2 demo_pools) ∧
    (∃ s1 s2, kfree demo_cfg 0 0x3000 demo_state = .ok () s1 ∧
        kalloc demo_cfg 0 0 s1 = .ok 0x3000 s2 ∧
        s2.freelist = demo_state.freelist ∧ Pools demo_cfg s2 demo_pools) :=
  free_then_alloc_round_trip demo_cfg demo_cfg_ok demo_state demo_pools demo_state_pools
    0x3000 0 0 (by decide) (by simp [valid_page, demo_cfg, PGSIZE])
    (by simp [pooled, demo_cfg, demo_pools, List.range_succ])

/-- C8 (counterexample): after `kfree_cpu(0x1000, 0)` on a state whose pool 0 is empty,
the first byte of the valid page `0x1000` is 0, not the poison value 1: the first eight
bytes of the page hold the `next` link. -/
theorem kfree_first_byte_is_link_not_poison :
    valid_page demo_cfg 0x1000 ∧
      ∃ s', kfree_cpu demo_cfg 0x1000 0 (boot fun _ => 0) = .ok () s' ∧
        s'.mem (0x1000 + 0) = 0 ∧ s'.mem (0x1000 + 0) ≠ 1 :=
  ⟨by simp [valid_page, demo_cfg, PGSIZE], _, rfl, rfl, by decide⟩

/-- C8 (amended): after `kfree_cpu(P, id)` or `kfree(P)` on core `cpu` completes for a
valid page `P`, every byte of `P` at offsets 8 to 4095 equals the poison value 1, and
the first eight bytes hold, in little-endian order, the previous head of the pool the
page was pushed on. -/
theorem free_poisons_page_behind_link (cfg : Config) (cpu id P : Nat) (s : KState)
    (hv : valid_page cfg P) :
    (∃ s', kfree_cpu cfg P id s = .ok () s' ∧
        (∀ k, 8 ≤ k → k < 4096 → s'.mem (P + k) = 1) ∧
        (∀ k, k < 8 → s'.mem (P + k) = s.freelist id / 256 ^ k % 256)) ∧
    (∃ s', kfree cfg cpu P s = .ok () s' ∧
        (∀ k, 8 ≤ k → k < 4096 → s'.mem (P + k) = 1) ∧
        (∀ k, k < 8 → s'.mem (P + k) = s.freelist cpu / 256 ^ k % 256)) := by
  have hbody : ∀ v k, 8 ≤ k → k < 4096 →
      write64 (memset s.mem P 1 PGSIZE) P v (P + k) = 1 := by
    intro v k h8 hk
    rw [write64_outside _ _ _ _ (by omega), memset_inside _ _ _ _ _ (by simp only [PGSIZE]; omega)]
  exact ⟨⟨_, kfree_cpu_ok cfg P id s hv, hbody _, fun k hk => write64_inside _ _ _ k hk⟩,
    ⟨_, kfree_ok cfg cpu P s hv, hbody _, fun k hk => write64_inside _ _ _ k hk⟩⟩

theorem free_poisons_page_behind_link_witness :
    (∃ s', kfree_cpu demo_cfg 0x3000 0 demo_state = .ok () s' ∧
        (∀ k, 8 ≤ k → k < 4096 → s'.mem (0x3000 + k) = 1) ∧
        (∀ k, k < 8 → s'.mem (0x3000 + k) = demo_state.freelist 0 / 256 ^ k % 256)) ∧
    (∃ s', kfree demo_cfg 1 0x3000 demo_state = .ok () s' ∧
        (∀ k, 8 ≤ k → k < 4096 → s'.mem (0x3000 + k) = 1) ∧
        (∀ k, k < 8 → s'.mem (0x3000 + k) = demo_state.freelist 1 / 256 ^ k % 256)) :=
  free_poisons_page_behind_link demo_cfg 1 0 0x3000 demo_state
    (by simp [valid_page, demo_cfg, PGSIZE])

/-- C9: whenever `kalloc` returns a non-zero page `P`, from the local pool or through a
steal, every one of the 4096 bytes of `P` equals the poison value 5 at the return, and 5
differs from the value 1 that the free functions write. -/
theorem kalloc_page_is_poisoned (cfg : Config) (fuel c : Nat) (s s' : KState) (P : Nat)
    (hrun : kalloc cfg fuel c s = .ok P s') (hP : P ≠ 0) :
    (∀ k, k < 4096 → s'.mem (P + k) = 5) ∧ (5 : Nat) ≠ 1 := by
  refine ⟨fun k hk => ?_, by decide⟩
  simp only [kalloc] at hrun
  generalize (if (kalloc_pop c (push_off s)).1 = 0 then
      kalloc_scan cfg fuel c cfg.NCPU 0 (kalloc_pop c (push_off s)).2
    else Res.ok (kalloc_pop c (push_off s)).1 (kalloc_pop c (push_off s)).2) = X at hrun
  cases X with
  | ok r s1 =>
    simp only [Res.bind] at hrun
    injection hrun with hr hs
    subst hr
    subst hs
    simp only [if_pos hP, pop_off]
    exact memset_inside _ _ _ _ _ (by simp only [PGSIZE]; omega)
  | panic msg t => exact Res.noConfusion hrun
  | fault t => exact Res.noConfusion hrun
  | timeout => exact Res.noConfusion hrun

theorem kalloc_page_is_poisoned_witness :
    ∃ s', kalloc demo_cfg 2 1 demo_state = .ok 0x4000 s' ∧
      (∀ k, k < 4096 → s'.mem (0x4000 + k) = 5) ∧ (5 : Nat) ≠ 1 :=
  ⟨_, rfl, kalloc_page_is_poisoned demo_cfg 2 1 demo_state _ 0x4000 rfl (by decide)⟩

/-! ## Seeding the pools: `freerange` and `kinit` -/

theorem freerange_bound_eq : freerange_bound = 2 ^ 64 / PGSIZE := by
  unfold freerange_bound
  rfl

theorem PGROUNDUP_mod (a : Nat) : PGROUNDUP a % PGSIZE = 0 := by
  simp only [PGROUNDUP, PGSIZE]
  omega

theorem PGROUNDUP_lt (a : Nat) : PGROUNDUP a < 2 ^ 64 := by
  simp only [PGROUNDUP, PGSIZE]
  omega

theorem PGROUNDUP_ge (a : Nat) (h : a + PGSIZE ≤ 2 ^ 64) : a ≤ PGROUNDUP a := by
  simp only [PGROUNDUP, PGSIZE] at *
  omega

theorem PGROUNDUP_next (a : Nat) : PGROUNDUP a < a + 4096 := by
  simp only [PGROUNDUP, PGSIZE]
  omega

theorem page_at_fits (cfg : Config) (k : Nat) (hk : k < page_count cfg) :
    page_at cfg k + PGSIZE ≤ cfg.PHYSTOP := by
  simp only [page_count] at hk
  have h2 : (k + 1) * PGSIZE ≤ cfg.PHYSTOP - PGROUNDUP cfg.kend :=
    (Nat.le_div_iff_mul_le (by decide)).1 hk
  simp only [page_at, PGSIZE] at *
  omega

theorem page_at_mod (cfg : Config) (k : Nat) : page_at cfg k % PGSIZE = 0 := by
  have h := PGROUNDUP_mod cfg.kend
  simp only [page_at, PGSIZE] at *
  omega

theorem page_at_valid (cfg : Config) (k : Nat) (hlo : cfg.kend ≤ PGROUNDUP cfg.kend)
    (hk : k < page_count cfg) :
    valid_page cfg (page_at cfg k) ∧ page_at cfg k + PGSIZE ≤ cfg.PHYSTOP := by
  have h1 := page_at_fits cfg k hk
  have h2 := page_at_mod cfg k
  refine ⟨⟨h2, ?_, ?_⟩, h1⟩
  · simp only [page_at]; omega
  · simp only [PGSIZE] at h1; omega

theorem page_at_stop (cfg : Config) (k : Nat) (hk : page_count cfg ≤ k) :
    ¬ page_at cfg k + PGSIZE ≤ cfg.PHYSTOP := by
  intro h
  simp only [page_count] at hk
  have h2 : (k + 1) * PGSIZE ≤ cfg.PHYSTOP - PGROUNDUP cfg.kend := by
    simp only [page_at, PGSIZE] at *
    omega
  have := (Nat.le_div_iff_mul_le (by decide)).2 h2
  omega

theorem page_at_inj (cfg : Config) (a b : Nat) (h : page_at cfg a = page_at cfg b) : a = b := by
  simp only [page_at, PGSIZE] at h
  omega

theorem mem_seeded (cfg : Config) (p : Nat) :
    ∀ n j, p ∈ seeded cfg n j → ∃ k, k < n ∧ k % cfg.NCPU = j ∧ p = page_at cfg k := by
  intro n
  induction n with
  | zero => intro j h; exact absurd h (List.not_mem_nil p)
  | succ n ih =>
    intro j h
    simp only [seeded] at h
    by_cases hj : n % cfg.NCPU = j
    · rw [if_pos hj] at h
      rcases List.mem_cons.1 h with e | h'
      · exact ⟨n, Nat.lt_succ_self n, hj, e⟩
      · obtain ⟨k, hk, h2, h3⟩ := ih j h'
        exact ⟨k, by omega, h2, h3⟩
    · rw [if_neg hj] at h
      obtain ⟨k, hk, h2, h3⟩ := ih j h
      exact ⟨k, by omega, h2, h3⟩

theorem seeded_succ (cfg : Config) (n : Nat) :
    seeded cfg (n + 1) =
      Function.update (seeded cfg n) (n % cfg.NCPU) (page_at cfg n :: seeded cfg n (n % cfg.NCPU)) := by
  funext j
  simp only [seeded, Function.update_apply]
  by_cases hj : n % cfg.NCPU = j
  · subst hj; simp
  · have hj2 : ¬ j = n % cfg.NCPU := fun e => hj e.symm
    simp [hj, hj2]

theorem not_mem_pooled_seeded (cfg : Config) (n : Nat) :
    page_at cfg n ∉ pooled cfg (seeded cfg n) := by
  intro h
  obtain ⟨i, _, hi⟩ := (mem_pooled cfg _ _).1 h
  obtain ⟨k, hk, _, e⟩ := mem_seeded cfg _ n i hi
  have := page_at_inj cfg _ _ e
  omega

/-- The lists after the first `n` pages of the range `[lower, upper)` went on top of the
lists `pools0`. -/
theorem seeded_append_succ (R : Config) (pools0 : Nat → List Nat) (n : Nat) :
    (fun j => seeded R (n + 1) j ++ pools0 j) =
      Function.update (fun j => seeded R n j ++ pools0 j) (n % R.NCPU)
        (page_at R n :: (seeded R n (n % R.NCPU) ++ pools0 (n % R.NCPU))) := by
  funext j
  simp only [seeded, Function.update_apply]
  by_cases hj : n % R.NCPU = j
  · subst hj; simp
  · have hj2 : ¬ j = n % R.NCPU := fun e => hj e.symm
    simp [hj, hj2]

theorem freerange_loop_spec (cfg : Config) (hc : cfg.ok) (lo hi : Nat)
    (hlo : cfg.kend ≤ PGROUNDUP lo) (hhi : hi ≤ cfg.PHYSTOP)
    (hnw : PGROUNDUP lo + PGSIZE < 2 ^ 64) (pools0 : Nat → List Nat)
    (hfresh : ∀ k, k < page_count (range_cfg cfg lo hi) →
      page_at (range_cfg cfg lo hi) k ∉ pooled cfg pools0) :
    ∀ d fuel n s, n + d = page_count (range_cfg cfg lo hi) → d < fuel →
      Pools cfg s (fun j => seeded (range_cfg cfg lo hi) n j ++ pools0 j) →
      ∃ s', freerange_loop cfg hi fuel (page_at (range_cfg cfg lo hi) n) n s = .ok () s' ∧
        Pools cfg s' (fun j => seeded (range_cfg cfg lo hi)
          (page_count (range_cfg cfg lo hi)) j ++ pools0 j) := by
  have hP43 : cfg.PHYSTOP < 2 ^ 43 := hc.2.2
  intro d
  induction d with
  | zero =>
    intro fuel n s hn hfuel hP
    have hn' : n = page_count (range_cfg cfg lo hi) := by omega
    refine ⟨s, ?_, by rw [← hn']; exact hP⟩
    obtain ⟨f, rfl⟩ : ∃ f, fuel = f + 1 := ⟨fuel - 1, by omega⟩
    have hstop := page_at_stop (range_cfg cfg lo hi) n (by omega)
    have hsmall : page_at (range_cfg cfg lo hi) n + PGSIZE < 2 ^ 64 := by
      cases n with
      | zero => simpa [page_at, range_cfg] using hnw
      | succ k =>
        have := page_at_fits (range_cfg cfg lo hi) k (by omega)
        have e : (range_cfg cfg lo hi).PHYSTOP = hi := rfl
        rw [e] at this
        simp only [page_at, PGSIZE] at *
        omega
    have e : (range_cfg cfg lo hi).PHYSTOP = hi := rfl
    rw [e] at hstop
    rw [freerange_loop, Nat.mod_eq_of_lt hsmall, if_neg hstop]
  | succ d ih =>
    intro fuel n s hn hfuel hP
    obtain ⟨f, rfl⟩ : ∃ f, fuel = f + 1 := ⟨fuel - 1, by omega⟩
    have hk : n < page_count (range_cfg cfg lo hi) := by omega
    have hfit := page_at_fits (range_cfg cfg lo hi) n hk
    have e : (range_cfg cfg lo hi).PHYSTOP = hi := rfl
    rw [e] at hfit
    have hge : PGROUNDUP lo ≤ page_at (range_cfg cfg lo hi) n := by
      simp only [page_at, range_cfg]; omega
    have hv : valid_page cfg (page_at (range_cfg cfg lo hi) n) :=
      ⟨page_at_mod _ n, by omega, by simp only [PGSIZE] at hfit; omega⟩
    have hi' : n % cfg.NCPU < cfg.NCPU := Nat.mod_lt _ hc.1
    have hnot : page_at (range_cfg cfg lo hi) n ∉
        pooled cfg (fun j => seeded (range_cfg cfg lo hi) n j ++ pools0 j) := by
      intro hin
      obtain ⟨i, hiN, hmem⟩ := (mem_pooled cfg _ _).1 hin
      rcases List.mem_append.1 hmem with h1 | h2
      · obtain ⟨k, hk', _, e'⟩ := mem_seeded _ _ n i h1
        have := page_at_inj _ _ _ e'
        omega
      · exact hfresh n hk ((mem_pooled cfg _ _).2 ⟨i, hiN, h2⟩)
    have hP1 := hP.free
      ⟨write64 (memset s.mem (page_at (range_cfg cfg lo hi) n) 1 PGSIZE)
          (page_at (range_cfg cfg lo hi) n) (s.freelist (n % cfg.NCPU)),
        Function.update s.freelist (n % cfg.NCPU) (page_at (range_cfg cfg lo hi) n),
        s.trace ++ [Ev.acquire (n % cfg.NCPU)] ++ [Ev.release (n % cfg.NCPU)]⟩
      hc (n % cfg.NCPU) (page_at (range_cfg cfg lo hi) n) hi' hv hnot rfl rfl
    have hss := seeded_append_succ (range_cfg cfg lo hi) pools0 n
    have eN : (range_cfg cfg lo hi).NCPU = cfg.NCPU := rfl
    rw [eN] at hss
    rw [← hss] at hP1
    obtain ⟨s', hrun, hP'⟩ := ih f (n + 1) _ (by omega) (by omega) hP1
    refine ⟨s', ?_, hP'⟩
    have hsmall : page_at (range_cfg cfg lo hi) n + PGSIZE < 2 ^ 64 := by
      simp only [PGSIZE] at *; omega
    rw [freerange_loop, Nat.mod_eq_of_lt hsmall, if_pos hfit, kfree_cpu_ok cfg _ _ s hv]
    simp only [Res.bind]
    have e2 : page_at (range_cfg cfg lo hi) n + PGSIZE = page_at (range_cfg cfg lo hi) (n + 1) := by
      simp only [page_at, PGSIZE]; omega
    rw [e2]
    exact hrun

theorem page_count_lt_bound (cfg : Config) (hi : Nat) (h : hi < 2 ^ 43) (lo : Nat) :
    page_count (range_cfg cfg lo hi) < freerange_bound := by
  rw [freerange_bound_eq]
  simp only [page_count, range_cfg, PGSIZE]
  omega

/-- A call `freerange(lower, upper)` inside the managed range, in a state that holds the
lists `pools0` and none of the pages of the call: it returns, with the pages of the call
on top of `pools0`. -/
theorem freerange_run (cfg : Config) (hc : cfg.ok) (lo hi : Nat)
    (hlo : cfg.kend ≤ PGROUNDUP lo) (hhi : hi ≤ cfg.PHYSTOP)
    (hnw : PGROUNDUP lo + PGSIZE < 2 ^ 64) (s : KState) (pools0 : Nat → List Nat)
    (hP : Pools cfg s pools0)
    (hfresh : ∀ k, k < page_count (range_cfg cfg lo hi) →
      page_at (range_cfg cfg lo hi) k ∉ pooled cfg pools0) :
    ∃ s', freerange cfg lo hi s = .ok () s' ∧
      Pools cfg s' (fun j => seeded (range_cfg cfg lo hi)
        (page_count (range_cfg cfg lo hi)) j ++ pools0 j) := by
  have h0 : Pools cfg s (fun j => seeded (range_cfg cfg lo hi) 0 j ++ pools0 j) := hP
  have hb := page_count_lt_bound cfg hi (by have := hc.2.2; omega) lo
  obtain ⟨s', hrun, hP'⟩ := freerange_loop_spec cfg hc lo hi hlo hhi hnw pools0 hfresh
    (page_count (range_cfg cfg lo hi)) freerange_bound 0 s (by omega) hb h0
  refine ⟨s', ?_, hP'⟩
  simp only [freerange]
  have e : page_at (range_cfg cfg lo hi) 0 = PGROUNDUP lo := by simp [page_at, range_cfg]
  rw [← e]
  exact hrun

theorem range_cfg_self (cfg : Config) : range_cfg cfg cfg.kend cfg.PHYSTOP = cfg := by
  cases cfg
  rfl

theorem kinit_locks_mem (cfg : Config) :
    ∀ rem s, (kinit_locks cfg rem s).mem = s.mem ∧
      (kinit_locks cfg rem s).freelist = s.freelist := by
  intro rem
  induction rem with
  | zero => intro s; exact ⟨rfl, rfl⟩
  | succ rem ih =>
    intro s
    simp only [kinit_locks]
    exact ih (initlock (cfg.NCPU - (rem + 1)) s)

/-- The call that `kinit` makes, `freerange(end, PHYSTOP)` on empty pools, when `end` is
not in the last two pages of the 64-bit address space. -/
theorem freerange_spec (cfg : Config) (hc : cfg.ok) (hnw : cfg.kend + 2 * PGSIZE ≤ 2 ^ 64)
    (s : KState) (hs : ∀ i, i < cfg.NCPU → s.freelist i = 0) :
    ∃ s', freerange cfg cfg.kend cfg.PHYSTOP s = .ok () s' ∧
      Pools cfg s' (seeded cfg (page_count cfg)) := by
  have hlo : cfg.kend ≤ PGROUNDUP cfg.kend :=
    PGROUNDUP_ge _ (by simp only [PGSIZE] at *; omega)
  have hnw2 : PGROUNDUP cfg.kend + PGSIZE < 2 ^ 64 := by
    have h1 := PGROUNDUP_next cfg.kend
    have h2 := PGROUNDUP_mod cfg.kend
    simp only [PGSIZE] at *
    omega
  obtain ⟨s', hrun, hP⟩ := freerange_run cfg hc cfg.kend cfg.PHYSTOP hlo (Nat.le_refl _) hnw2 s
    (fun _ => []) (Pools.empty cfg s hs)
    (fun k _ hin => by rw [pooled_nil] at hin; exact absurd hin (List.not_mem_nil _))
  refine ⟨s', hrun, ?_⟩
  rw [range_cfg_self] at hP
  have e : (fun j => seeded cfg (page_count cfg) j ++ []) = seeded cfg (page_count cfg) := by
    funext j
    exact List.append_nil _
  rw [e] at hP
  exact hP

theorem kinit_spec (cfg : Config) (hc : cfg.ok) (hnw : cfg.kend + 2 * PGSIZE ≤ 2 ^ 64)
    (m : Nat → Nat) :
    ∃ s, kinit cfg (boot m) = .ok () s ∧ Pools cfg s (seeded cfg (page_count cfg)) := by
  have hf := (kinit_locks_mem cfg cfg.NCPU (boot m)).2
  obtain ⟨s, hrun, hP⟩ := freerange_spec cfg hc hnw (kinit_locks cfg cfg.NCPU (boot m))
    (fun i _ => by rw [hf]; rfl)
  exact ⟨s, hrun, hP⟩

theorem managed_valid (cfg : Config) (hlo : cfg.kend ≤ PGROUNDUP cfg.kend) (p : Nat)
    (h : p ∈ managed cfg) : valid_page cfg p := by
  obtain ⟨k, hk, e⟩ := List.mem_map.1 h
  rw [← e]
  exact (page_at_valid cfg k hlo (List.mem_range.1 hk)).1

/-- Whenever `kinit` returns, also for an `end` so high that the pointer arithmetic of
`freerange` wraps, the pools hold the seeded lists and every managed page is valid: with
a wrap the first page fails the test of `kfree_cpu`, or no page fits below `PHYSTOP`. -/
theorem kinit_returns_spec (cfg : Config) (hc : cfg.ok) (m : Nat → Nat) (s : KState)
    (hrun : kinit cfg (boot m) = .ok () s) :
    Pools cfg s (seeded cfg (page_count cfg)) ∧ ∀ p, p ∈ managed cfg → valid_page cfg p := by
  by_cases hnw : cfg.kend + 2 * PGSIZE ≤ 2 ^ 64
  · obtain ⟨s0, hrun0, hP⟩ := kinit_spec cfg hc hnw m
    rw [hrun0] at hrun
    injection hrun with _ hs
    subst hs
    exact ⟨hP, managed_valid cfg (PGROUNDUP_ge _ (by simp only [PGSIZE] at *; omega))⟩
  · have hP43 : cfg.PHYSTOP < 2 ^ 43 := hc.2.2
    have hb : freerange_bound = (2 ^ 64 / PGSIZE - 1) + 1 := by
      rw [freerange_bound_eq]; decide
    simp only [kinit, freerange] at hrun
    rw [hb, freerange_loop] at hrun
    by_cases hC : (PGROUNDUP cfg.kend + PGSIZE) % 2 ^ 64 ≤ cfg.PHYSTOP
    · have hv : ¬ valid_page cfg (PGROUNDUP cfg.kend) := by
        rintro ⟨_, h2, h3⟩
        simp only [PGSIZE] at hnw
        omega
      rw [if_pos hC, kfree_cpu_panic cfg _ _ _ hv] at hrun
      exact Res.noConfusion hrun
    · rw [if_neg hC] at hrun
      injection hrun with _ hs
      have hlt := PGROUNDUP_lt cfg.kend
      have h0 : page_count cfg = 0 := by
        simp only [page_count, PGSIZE] at *
        omega
      have hf := (kinit_locks_mem cfg cfg.NCPU (boot m)).2
      refine ⟨?_, fun p hp => ?_⟩
      · rw [h0, ← hs]
        exact Pools.empty cfg _ fun i _ => by rw [hf]; rfl
      · simp only [managed, h0, List.range_zero, List.map_nil] at hp
        exact absurd hp (List.not_mem_nil p)

theorem count_pooled_seeded (cfg : Config) (hc : cfg.ok) (q : Nat) :
    ∀ n, List.count q (pooled cfg (seeded cfg n)) =
      List.count q ((List.range n).map (page_at cfg)) := by
  intro n
  induction n with
  | zero =>
    have : pooled cfg (seeded cfg 0) = [] := pooled_nil cfg
    rw [this]; rfl
  | succ n ih =>
    have h := count_pooled_update cfg (seeded cfg n) (n % cfg.NCPU)
      (page_at cfg n :: seeded cfg n (n % cfg.NCPU)) q (Nat.mod_lt _ hc.1)
    rw [← seeded_succ, List.count_cons] at h
    rw [List.range_succ, List.map_append, List.count_append, ← ih, List.map_singleton,
      List.count_singleton]
    omega

theorem pooled_seeded_perm (cfg : Config) (hc : cfg.ok) :
    (pooled cfg (seeded cfg (page_count cfg))).Perm (managed cfg) :=
  List.perm_iff_count.2 fun q => count_pooled_seeded cfg hc q (page_count cfg)

theorem managed_nodup (cfg : Config) : (managed cfg).Nodup :=
  List.Nodup.map (fun a b h => page_at_inj cfg a b h) (List.nodup_range _)

theorem succ_div_mod (n N : Nat) (hN : 0 < N) :
    ((n + 1) % N = 0 ∧ (n + 1) / N = n / N + 1 ∧ n % N + 1 = N) ∨
    ((n + 1) % N = n % N + 1 ∧ (n + 1) / N = n / N) := by
  have h1 := Nat.mod_add_div n N
  have h2 := Nat.mod_lt n hN
  by_cases hw : n % N + 1 = N
  · left
    have : (n + 1) / N = n / N + 1 ∧ (n + 1) % N = 0 :=
      (Nat.div_mod_unique hN).2 ⟨by rw [Nat.mul_succ]; omega, hN⟩
    exact ⟨this.2, this.1, hw⟩
  · right
    have : (n + 1) / N = n / N ∧ (n + 1) % N = n % N + 1 :=
      (Nat.div_mod_unique hN).2 ⟨by omega, by omega⟩
    exact ⟨this.2, this.1⟩

theorem seeded_length (cfg : Config) (hc : cfg.ok) (j : Nat) (hj : j < cfg.NCPU) :
    ∀ n, (seeded cfg n j).length = n / cfg.NCPU + if j < n % cfg.NCPU then 1 else 0 := by
  intro n
  induction n with
  | zero => simp [seeded]
  | succ n ih =>
    have h2 := Nat.mod_lt n hc.1
    simp only [seeded]
    rcases succ_div_mod n cfg.NCPU hc.1 with ⟨e1, e2, e3⟩ | ⟨e1, e2⟩
    · rw [e1, e2]
      by_cases hj2 : n % cfg.NCPU = j
      · rw [if_pos hj2, List.length_cons, ih, if_neg (by omega), if_neg (by omega)]
      · rw [if_neg hj2, ih, if_pos (by omega), if_neg (by omega)]
    · rw [e1, e2]
      by_cases hj2 : n % cfg.NCPU = j
      · rw [if_pos hj2, List.length_cons, ih, if_neg (by omega), if_pos (by omega)]
      · rw [if_neg hj2, ih]
        by_cases hj3 : j < n % cfg.NCPU
        · rw [if_pos hj3, if_pos (by omega)]
        · rw [if_neg hj3, if_neg (by omega)]

theorem ceil_div (M N : Nat) (hN : 0 < N) :
    (M + N - 1) / N = M / N + if M % N = 0 then 0 else 1 := by
  have h1 := Nat.mod_add_div M N
  have h2 := Nat.mod_lt M hN
  by_cases h0 : M % N = 0
  · rw [if_pos h0]
    exact ((Nat.div_mod_unique hN).2 ⟨by rw [Nat.add_zero]; omega, by omega⟩ :
      (M + N - 1) / N = M / N + 0 ∧ (M + N - 1) % N = N - 1).1
  · rw [if_neg h0]
    exact ((Nat.div_mod_unique hN).2 ⟨by rw [Nat.mul_succ]; omega, by omega⟩ :
      (M + N - 1) / N = M / N + 1 ∧ (M + N - 1) % N = M % N - 1).1

theorem sum_lengths (cfg : Config) (pools : Nat → List Nat) :
    ((List.range cfg.NCPU).map fun j => (pools j).length).sum = (pooled cfg pools).length := by
  simp only [pooled, List.length_flatMap]
  rfl

/-- C10: for every configuration with at least one pool, whenever `kinit` returns it leaves
in pool `j` a list whose length is `M / N` or `(M + N - 1) / N` (floor or ceiling of
`M / N`), where `M` is the number of whole pages between the rounded-up end of the kernel
and `PHYSTOP` and `N = NCPU`; any two pool lengths differ by at most one, and the lengths
of the `N` pools sum to `M`.  And `kinit` does return, unless `end` lies in the last two
pages of the 64-bit address space, where the pointer arithmetic of `freerange` wraps. -/
theorem kinit_fairness (cfg : Config) (hc : cfg.ok) (m : Nat → Nat) :
    (cfg.kend + 2 * 4096 ≤ 2 ^ 64 → ∃ s, kinit cfg (boot m) = .ok () s) ∧
    ∀ s, kinit cfg (boot m) = .ok () s →
      ∃ pools, Pools cfg s pools ∧
        (∀ j, j < cfg.NCPU → (pools j).length = page_count cfg / cfg.NCPU ∨
          (pools j).length = (page_count cfg + cfg.NCPU - 1) / cfg.NCPU) ∧
        (∀ i j, i < cfg.NCPU → j < cfg.NCPU → (pools i).length ≤ (pools j).length + 1) ∧
        ((List.range cfg.NCPU).map fun j => (pools j).length).sum = page_count cfg := by
  refine ⟨fun hnw => ?_, fun s hrun => ?_⟩
  · obtain ⟨s, hrun, _⟩ := kinit_spec cfg hc hnw m
    exact ⟨s, hrun⟩
  · have hP := (kinit_returns_spec cfg hc m s hrun).1
    refine ⟨seeded cfg (page_count cfg), hP, fun j hj => ?_, fun i j hi hj => ?_, ?_⟩
    · rw [seeded_length cfg hc j hj, ceil_div _ _ hc.1]
      by_cases h0 : page_count cfg % cfg.NCPU = 0
      · left; rw [h0, if_neg (by omega)]; rfl
      · by_cases hlt : j < page_count cfg % cfg.NCPU
        · right; rw [if_pos hlt, if_neg h0]
        · left; rw [if_neg hlt]; rfl
    · rw [seeded_length cfg hc i hi, seeded_length cfg hc j hj]
      split <;> split <;> omega
    · rw [sum_lengths, (pooled_seeded_perm cfg hc).length_eq]
      simp [managed]

theorem kinit_fairness_witness :
    page_count demo_cfg = 4 ∧ demo_cfg.NCPU = 2 ∧
    ∃ s pools, kinit demo_cfg (boot fun _ => 0) = .ok () s ∧ Pools demo_cfg s pools ∧
      (∀ j, j < demo_cfg.NCPU → (pools j).length = page_count demo_cfg / demo_cfg.NCPU ∨
        (pools j).length = (page_count demo_cfg + demo_cfg.NCPU - 1) / demo_cfg.NCPU) ∧
      (∀ i j, i < demo_cfg.NCPU → j < demo_cfg.NCPU →
        (pools i).length ≤ (pools j).length + 1) ∧
      ((List.range demo_cfg.NCPU).map fun j => (pools j).length).sum = page_count demo_cfg := by
  obtain ⟨s, hs⟩ := (kinit_fairness demo_cfg demo_cfg_ok fun _ => 0).1 (by decide)
  obtain ⟨pools, h⟩ := (kinit_fairness demo_cfg demo_cfg_ok fun _ => 0).2 s hs
  exact ⟨by decide, rfl, s, pools, hs, h⟩

/-! ## The ownership invariant -/

theorem held_page_facts (cfg : Config) (hmv : ∀ p, p ∈ managed cfg → valid_page cfg p)
    (pools : Nat → List Nat) (held : List Nat)
    (hcnt : ∀ q, List.count q (pooled cfg pools) + List.count q held =
      List.count q (managed cfg))
    (pa : Nat) (hpa : pa ∈ held) : valid_page cfg pa ∧ pa ∉ pooled cfg pools := by
  have h1 := hcnt pa
  have h2 : 0 < List.count pa held := List.count_pos_iff.2 hpa
  have h3 := List.nodup_iff_count_le_one.1 (managed_nodup cfg) pa
  refine ⟨hmv pa (List.count_pos_iff.1 (by omega)), fun hin => ?_⟩
  have := List.count_pos_iff.2 hin
  omega

theorem count_cons_eq (q p : Nat) (l : List Nat) :
    List.count q (p :: l) = List.count q l + if p = q then 1 else 0 := by
  rw [List.count_cons]
  by_cases h : p = q
  · simp [h]
  · simp [h]

theorem count_erase_eq (q p : Nat) (l : List Nat) :
    List.count q (l.erase p) = List.count q l - if p = q then 1 else 0 := by
  rw [List.count_erase]
  by_cases h : p = q
  · simp [h]
  · simp [h]

theorem free_step_inv (cfg : Config) (hc : cfg.ok)
    (hmv : ∀ p, p ∈ managed cfg → valid_page cfg p) (s : KState) (pools : Nat → List Nat)
    (held : List Nat) (hP : Pools cfg s pools)
    (hcnt : ∀ q, List.count q (pooled cfg pools) + List.count q held =
      List.count q (managed cfg))
    (s' : KState) (i pa : Nat) (hi : i < cfg.NCPU) (hpa : pa ∈ held)
    (hm : s'.mem = write64 (memset s.mem pa 1 PGSIZE) pa (s.freelist i))
    (hf : s'.freelist = Function.update s.freelist i pa) :
    ∃ pools', Pools cfg s' pools' ∧
      ∀ q, List.count q (pooled cfg pools') + List.count q (held.erase pa) =
        List.count q (managed cfg) := by
  obtain ⟨hv, hnot⟩ := held_page_facts cfg hmv pools held hcnt pa hpa
  refine ⟨_, hP.free s' hc i pa hi hv hnot hm hf, fun q => ?_⟩
  have h1 := count_pooled_update cfg pools i (pa :: pools i) q hi
  have h2 := hcnt q
  rw [count_cons_eq] at h1
  rw [count_erase_eq]
  by_cases e : pa = q
  · have h3 : 0 < List.count q held := List.count_pos_iff.2 (e ▸ hpa)
    simp only [e, if_true] at h1 ⊢
    omega
  · simp only [e, if_false] at h1 ⊢
    omega

/-- A state can only be reached when `kinit` returned, and then every seeded page is a
valid page. -/
theorem reachable_managed_valid (cfg : Config) (hc : cfg.ok) (s : KState) (held : List Nat)
    (h : Reachable cfg s held) : ∀ p, p ∈ managed cfg → valid_page cfg p := by
  induction h with
  | init m s hrun => exact (kinit_returns_spec cfg hc m s hrun).2
  | alloc _ _ _ _ _ _ _ _ _ ih => exact ih
  | free _ _ _ _ _ _ _ _ _ ih => exact ih
  | free_cpu _ _ _ _ _ _ _ _ _ ih => exact ih
  | steal _ _ _ _ _ _ _ _ _ _ _ _ _ ih => exact ih
  | write _ _ _ _ _ _ _ _ ih => exact ih

theorem reachable_inv (cfg : Config) (hc : cfg.ok) (s : KState) (held : List Nat)
    (h : Reachable cfg s held) :
    ∃ pools, Pools cfg s pools ∧
      ∀ q, List.count q (pooled cfg pools) + List.count q held =
        List.count q (managed cfg) := by
  have hmv := reachable_managed_valid cfg hc s held h
  induction h with
  | init m s hrun =>
    have hP := (kinit_returns_spec cfg hc m s hrun).1
    refine ⟨_, hP, fun q => ?_⟩
    rw [count_pooled_seeded cfg hc q]
    simp [managed]
  | alloc s held fuel c r s' _ hcN hrun ih =>
    obtain ⟨pools, hP, hcnt⟩ := ih
    rcases kalloc_spec cfg hc fuel c hcN s pools hP with
      ⟨j, p, rest, s1, hj, hpj, _, hrun1, hne, hP1, _⟩ | ⟨_, _, s1, hrun1, hm, hf⟩ |
      ⟨_, _, hrun1⟩
    · rw [hrun1] at hrun
      injection hrun with hr hs
      subst hr
      subst hs
      refine ⟨_, hP1, fun q => ?_⟩
      have h1 := count_pooled_update cfg pools j rest q hj
      have h2 := hcnt q
      rw [hpj, count_cons_eq] at h1
      rw [if_neg hne, count_cons_eq]
      omega
    · rw [hrun1] at hrun
      injection hrun with hr hs
      subst hr
      subst hs
      exact ⟨pools, hP.congr hm hf, fun q => by rw [if_pos rfl]; exact hcnt q⟩
    · rw [hrun1] at hrun
      exact Res.noConfusion hrun
  | free s held c pa s' _ hcN hpa hrun ih =>
    obtain ⟨pools, hP, hcnt⟩ := ih
    have hv := (held_page_facts cfg hmv pools held hcnt pa hpa).1
    rw [kfree_ok cfg c pa s hv] at hrun
    injection hrun with _ hs
    subst hs
    exact free_step_inv cfg hc hmv s pools held hP hcnt _ c pa hcN hpa rfl rfl
  | free_cpu s held id pa s' _ hid hpa hrun ih =>
    obtain ⟨pools, hP, hcnt⟩ := ih
    have hv := (held_page_facts cfg hmv pools held hcnt pa hpa).1
    rw [kfree_cpu_ok cfg pa id s hv] at hrun
    injection hrun with _ hs
    subst hs
    exact free_step_inv cfg hc hmv s pools held hP hcnt _ id pa hid hpa rfl rfl
  | steal s held dest src n L s' _ hd hs hL hn hrun ih =>
    obtain ⟨pools, hP, hcnt⟩ := ih
    by_cases hne : dest = src
    · simp only [steal_pages, if_pos hne] at hrun
      injection hrun with _ hs'
      subst hs'
      exact ⟨pools, hP, hcnt⟩
    · have hLeq : L = pools src := IsList_unique s.mem L _ _ hL (hP.is_list src hs)
      subst hLeq
      obtain ⟨s1, hrun1, hP1⟩ := steal_pages_ok cfg hc dest src n hd hs hne s pools hP hn
      rw [hrun1] at hrun
      injection hrun with _ hs'
      subst hs'
      refine ⟨_, hP1, fun q => ?_⟩
      have h1 := count_pooled_update cfg pools src ((pools src).drop n) q hs
      have h2 := count_pooled_update cfg (Function.update pools src ((pools src).drop n)) dest
        (((pools src).take n).reverse ++ pools dest) q hd
      rw [Function.update_noteq hne] at h2
      rw [List.count_append, List.count_reverse] at h2
      have h3 : List.count q ((pools src).take n) + List.count q ((pools src).drop n) =
          List.count q (pools src) := by
        rw [← List.count_append, List.take_append_drop]
      have h4 := hcnt q
      omega
  | write s held pa k v _ hpa hk ih =>
    obtain ⟨pools, hP, hcnt⟩ := ih
    obtain ⟨hv, hnot⟩ := held_page_facts cfg hmv pools held hcnt pa hpa
    refine ⟨pools, hP.frame _ pa hv.1 hnot (fun x hx => ?_) rfl, hcnt⟩
    show Function.update s.mem (pa + k) v x = s.mem x
    rw [Function.update_noteq]
    intro e
    simp only [PGSIZE] at hx hk
    omega

/-- C2: in every state reached from `kinit` by sequential calls of `kalloc`, of `kfree` and
`kfree_cpu` on pages that callers hold, and of `steal_pages` on a sufficiently supplied
source (and by writes of callers into pages they hold), every `kmem[i].freelist` heads a
proper list, and the pages of all pools together with the pages held by callers are
exactly the pages seeded by `kinit`: the two collections are permutations of each other,
no page occurs twice, and every managed page occurs exactly once, in one pool or in the
hands of one caller. -/
theorem ownership_invariant (cfg : Config) (hc : cfg.ok) (s : KState) (held : List Nat)
    (h : Reachable cfg s held) :
    ∃ pools, Pools cfg s pools ∧
      (pooled cfg pools ++ held).Perm (managed cfg) ∧
      (pooled cfg pools ++ held).Nodup ∧
      (∀ p, p ∈ managed cfg → List.count p (pooled cfg pools ++ held) = 1) ∧
      (∀ p, p ∉ managed cfg → p ∉ pooled cfg pools ++ held) := by
  obtain ⟨pools, hP, hcnt⟩ := reachable_inv cfg hc s held h
  have hperm : (pooled cfg pools ++ held).Perm (managed cfg) :=
    List.perm_iff_count.2 fun q => by rw [List.count_append]; exact hcnt q
  have hnd : (pooled cfg pools ++ held).Nodup := hperm.nodup_iff.2 (managed_nodup cfg)
  refine ⟨pools, hP, hperm, hnd, fun p hp => ?_, fun p hp hin => hp (hperm.mem_iff.1 hin)⟩
  exact List.count_eq_one_of_mem hnd (hperm.mem_iff.2 hp)

/-! ## The concrete scenario of the specification -/

/-- With a page in the local pool, `kalloc` returns the head of the local pool. -/
theorem kalloc_local (cfg : Config) (hc : cfg.ok) (fuel c : Nat) (hcN : c < cfg.NCPU)
    (s : KState) (pools : Nat → List Nat) (hP : Pools cfg s pools) (p : Nat) (rest : List Nat)
    (hpc : pools c = p :: rest) :
    ∃ s', kalloc cfg fuel c s = .ok p s' ∧ Pools cfg s' (Function.update pools c rest) := by
  rcases kalloc_spec cfg hc fuel c hcN s pools hP with
    ⟨j, q, rest', s1, _, hpj, hcase, hrun1, _, hP1, _⟩ | ⟨hnil, _⟩ | ⟨hnil, _⟩
  · rcases hcase with e | ⟨hnil, _⟩
    · subst e
      rw [hpc] at hpj
      injection hpj with e1 e2
      subst e1
      subst e2
      exact ⟨s1, hrun1, hP1⟩
    · rw [hpc] at hnil
      exact List.noConfusion hnil
  · rw [hpc] at hnil
    exact List.noConfusion hnil
  · rw [hpc] at hnil
    exact List.noConfusion hnil

/-- With an empty local pool and no pool of exactly one page, `kalloc` returns 0, however
many pages the other pools hold. -/
theorem kalloc_skips_longer_pools (cfg : Config) (hc : cfg.ok) (fuel c : Nat)
    (hcN : c < cfg.NCPU) (s : KState) (pools : Nat → List Nat) (hP : Pools cfg s pools)
    (hloc : pools c = []) (hno : ∀ j, j < cfg.NCPU → (pools j).length ≠ 1)
    (hfuel : ∀ j, j < cfg.NCPU → (pools j).length ≤ fuel) :
    ∃ s', kalloc cfg fuel c s = .ok 0 s' ∧ s'.mem = s.mem ∧ s'.freelist = s.freelist := by
  rcases kalloc_spec cfg hc fuel c hcN s pools hP with
    ⟨j, q, rest', s1, hj, hpj, hcase, _⟩ | ⟨_, _, h⟩ | ⟨_, ⟨j, hj, hlong⟩, _⟩
  · rcases hcase with e | ⟨_, hr⟩
    · subst e
      rw [hloc] at hpj
      exact List.noConfusion hpj
    · have := hno j hj
      rw [hpj, hr] at this
      exact absurd rfl this
  · exact h
  · have := hfuel j hj
    omega

theorem demo_seeded : seeded demo_cfg (page_count demo_cfg) =
    fun j => if j = 0 then [0x3000, 0x1000] else if j = 1 then [0x4000, 0x2000] else [] := by
  funext j
  have e : page_count demo_cfg = 4 := by decide
  rw [e]
  by_cases h0 : j = 0
  · subst h0; rfl
  · by_cases h1 : j = 1
    · subst h1; rfl
    · have a0 : ¬ 0 = j := fun h => h0 h.symm
      have a1 : ¬ 1 = j := fun h => h1 h.symm
      simp [seeded, demo_cfg, h0, h1, a0, a1]

/-- The concrete scenario of the specification: after `kinit` and two calls of `kalloc`
on core 0, callers hold `0x3000` and `0x1000`, pool 0 is empty and pool 1 still holds
`0x4000` and `0x2000`. -/
theorem demo_after_two_allocs (m : Nat → Nat) (fuel : Nat) :
    ∃ s0 s1 s2, kinit demo_cfg (boot m) = .ok () s0 ∧
      kalloc demo_cfg fuel 0 s0 = .ok 0x3000 s1 ∧
      kalloc demo_cfg fuel 0 s1 = .ok 0x1000 s2 ∧
      Reachable demo_cfg s2 [0x1000, 0x3000] ∧ Pools demo_cfg s2 demo_pools := by
  obtain ⟨s0, hrun0, hP0⟩ := kinit_spec demo_cfg demo_cfg_ok (by decide) m
  rw [demo_seeded] at hP0
  obtain ⟨s1, hrun1, hP1⟩ := kalloc_local demo_cfg demo_cfg_ok fuel 0 (by decide) s0 _ hP0
    0x3000 [0x1000] rfl
  obtain ⟨s2, hrun2, hP2⟩ := kalloc_local demo_cfg demo_cfg_ok fuel 0 (by decide) s1 _ hP1
    0x1000 [] (by rw [Function.update_same])
  have e : Function.update (Function.update
      (fun j => if j = 0 then [0x3000, 0x1000] else if j = 1 then [0x4000, 0x2000] else [])
      0 [0x1000]) 0 [] = demo_pools := by
    funext j
    simp only [Function.update_apply, demo_pools]
    by_cases h0 : j = 0
    · subst h0; rfl
    · simp [h0]
  rw [e] at hP2
  have r0 : Reachable demo_cfg s0 [] := Reachable.init m s0 hrun0
  have r1 := Reachable.alloc s0 [] fuel 0 0x3000 s1 r0 (by decide) hrun1
  have r2 := Reachable.alloc s1 _ fuel 0 0x1000 s2 r1 (by decide) hrun2
  exact ⟨s0, s1, s2, hrun0, hrun1, hrun2, r2, hP2⟩

/-- C1 (evaluated at the failing input): in the two-pool scenario of the specification,
in the state reached from `kinit` by two allocations on core 0, pool 0 is empty and
pool 1 holds the two pages `0x4000` and `0x2000`; `kalloc` on core 0 returns 0 there. -/
theorem kalloc_returns_zero_beside_two_free_pages :
    ∃ s, Reachable demo_cfg s [0x1000, 0x3000] ∧ Pools demo_cfg s demo_pools ∧
      demo_pools 0 = [] ∧ demo_pools 1 = [0x4000, 0x2000] ∧
      ∃ s', kalloc demo_cfg 2 0 s = .ok 0 s' := by
  obtain ⟨_, _, s, _, _, _, hr, hP⟩ := demo_after_two_allocs (fun _ => 0) 2
  obtain ⟨s', hrun, _⟩ := kalloc_skips_longer_pools demo_cfg demo_cfg_ok 2 0 (by decide) s
    demo_pools hP rfl
    (fun j hj => by
      have hj2 : j < 2 := hj
      interval_cases j <;> simp [demo_pools])
    (fun j hj => by
      have hj2 : j < 2 := hj
      interval_cases j <;> simp [demo_pools])
  exact ⟨s, hr, hP, rfl, rfl, s', hrun⟩

theorem ownership_invariant_witness :
    ∃ s, Reachable demo_cfg s [0x1000, 0x3000] ∧
      ∃ pools, Pools demo_cfg s pools ∧
        (pooled demo_cfg pools ++ [0x1000, 0x3000]).Perm (managed demo_cfg) ∧
        (pooled demo_cfg pools ++ [0x1000, 0x3000]).Nodup ∧
        (∀ p, p ∈ managed demo_cfg →
          List.count p (pooled demo_cfg pools ++ [0x1000, 0x3000]) = 1) ∧
        (∀ p, p ∉ managed demo_cfg → p ∉ pooled demo_cfg pools ++ [0x1000, 0x3000]) := by
  obtain ⟨_, _, s, _, _, _, hr, _⟩ := demo_after_two_allocs (fun _ => 0) 2
  exact ⟨s, hr, ownership_invariant demo_cfg demo_cfg_ok s _ hr⟩

/-! ## Seeding order -/

theorem seeded_mem_iff (cfg : Config) (p : Nat) (n j : Nat) :
    p ∈ seeded cfg n j ↔ ∃ k, k < n ∧ k % cfg.NCPU = j ∧ p = page_at cfg k := by
  refine ⟨mem_seeded cfg p n j, ?_⟩
  induction n with
  | zero => rintro ⟨k, hk, _⟩; omega
  | succ n ih =>
    rintro ⟨k, hk, hj, hp⟩
    simp only [seeded]
    by_cases hkn : k = n
    · subst hkn
      rw [if_pos hj, hp]
      exact List.mem_cons_self _ _
    · have hin : p ∈ seeded cfg n j := ih ⟨k, by omega, hj, hp⟩
      by_cases hn : n % cfg.NCPU = j
      · rw [if_pos hn]; exact List.mem_cons_of_mem _ hin
      · rw [if_neg hn]; exact hin

theorem seeded_decreasing (cfg : Config) (j : Nat) :
    ∀ n, (seeded cfg n j).Pairwise (fun a b => b < a) := by
  intro n
  induction n with
  | zero => exact List.Pairwise.nil
  | succ n ih =>
    simp only [seeded]
    by_cases hn : n % cfg.NCPU = j
    · rw [if_pos hn]
      refine List.Pairwise.cons (fun b hb => ?_) ih
      obtain ⟨k, hk, _, e⟩ := mem_seeded cfg b n j hb
      rw [e]
      simp only [page_at, PGSIZE]
      omega
    · rw [if_neg hn]; exact ih

theorem page_index_lt_iff (cfg : Config) (k : Nat) :
    k < page_count cfg ↔ page_at cfg k + PGSIZE ≤ cfg.PHYSTOP := by
  constructor
  · intro h; exact page_at_fits cfg k h
  · intro h
    by_cases hk : k < page_count cfg
    · exact hk
    · exact absurd h (page_at_stop cfg k (by omega))

/-- The first iteration of the loop of `freerange`. -/
theorem freerange_first (cfg : Config) (lo hi : Nat) (s : KState) :
    freerange cfg lo hi s =
      if (PGROUNDUP lo + PGSIZE) % 2 ^ 64 ≤ hi then
        (kfree_cpu cfg (PGROUNDUP lo) (0 % cfg.NCPU) s).bind fun _ s =>
          freerange_loop cfg hi (2 ^ 64 / PGSIZE - 1) ((PGROUNDUP lo + PGSIZE) % 2 ^ 64) (0 + 1) s
      else .ok () s := by
  have hb : freerange_bound = (2 ^ 64 / PGSIZE - 1) + 1 := by
    rw [freerange_bound_eq]; decide
  simp only [freerange]
  rw [hb, freerange_loop]

/-- An `end` in the last two pages of the 64-bit address space: in the last page
`PGROUNDUP` wraps to address 0, in the page before `p + PGSIZE` wraps to 0, so the loop
of `freerange` is entered and `kinit` panics in `kfree_cpu` at its first page. -/
theorem kinit_panics_at_wrapped_end (m : Nat → Nat) :
    kinit ⟨2, 0xfffffffffffff001, 0x5000⟩ (boot m) =
      .panic "kfree_cpu" ⟨m, fun _ => 0, [Ev.initlock 0, Ev.initlock 1]⟩ ∧
    kinit ⟨2, 0xffffffffffffe001, 0x5000⟩ (boot m) =
      .panic "kfree_cpu" ⟨m, fun _ => 0, [Ev.initlock 0, Ev.initlock 1]⟩ := by
  constructor
  · simp only [kinit]
    rw [freerange_first]
    rfl
  · simp only [kinit]
    rw [freerange_first]
    rfl

/-- A lower bound below the end of the kernel is outside the domain of `freerange`: with
`end = 0x1000`, the call `freerange(0, 0x5000)` panics in `kfree_cpu` at its first page,
address 0. -/
theorem freerange_below_end_panics (m : Nat → Nat) :
    freerange demo_cfg 0 0x5000 (boot m) = .panic "kfree_cpu" (boot m) := by
  rw [freerange_first]
  rfl

/-- A page that is already in a pool is outside the domain of `freerange`: after
`freerange(0x1000, 0x2000)` on empty pools, pool 0 holds the page `0x1000`; a second
call `freerange(0x1000, 0x2000)` returns, but then page `0x1000` links to itself and the
head of pool 0 starts no finite list. -/
theorem freerange_twice_breaks_pool (m : Nat → Nat) :
    ∃ s1 s2, freerange demo_cfg 0x1000 0x2000 (boot m) = .ok () s1 ∧
      IsList s1.mem (s1.freelist 0) [0x1000] ∧
      freerange demo_cfg 0x1000 0x2000 s1 = .ok () s2 ∧
      s2.freelist 0 = 0x1000 ∧ read64 s2.mem 0x1000 = 0x1000 ∧
      ∀ L, ¬ IsList s2.mem (s2.freelist 0) L := by
  have hv : valid_page demo_cfg 0x1000 := by decide
  have hfu : (2 : Nat) ^ 64 / PGSIZE - 1 = (2 ^ 64 / PGSIZE - 2) + 1 := by decide
  have hrun : ∀ s : KState, freerange demo_cfg 0x1000 0x2000 s = .ok ()
      ⟨write64 (memset s.mem 0x1000 1 PGSIZE) 0x1000 (s.freelist 0),
        Function.update s.freelist 0 0x1000, s.trace ++ [Ev.acquire 0] ++ [Ev.release 0]⟩ := by
    intro s
    rw [freerange_first]
    have e1 : PGROUNDUP 0x1000 = 0x1000 := by decide
    have e2 : 0 % demo_cfg.NCPU = 0 := rfl
    rw [e1, e2, if_pos (by decide), kfree_cpu_ok demo_cfg 0x1000 0 s hv]
    simp only [Res.bind]
    rw [hfu, freerange_loop, if_neg (by decide)]
  have hloop : ∀ (mm : Nat → Nat), read64 mm 0x1000 = 0x1000 → ∀ L, ¬ IsList mm 0x1000 L := by
    intro mm hmm L
    induction L with
    | nil =>
      intro h
      have h0 : (0x1000 : Nat) = 0 := h
      exact absurd h0 (by decide)
    | cons p L ih =>
      rintro ⟨e, _, hl⟩
      rw [← e, hmm] at hl
      exact ih hl
  have hafter : ∀ (mm : Nat → Nat) (f : Nat → Nat) (v : Nat), v < 2 ^ 64 →
      Function.update f 0 0x1000 0 = 0x1000 ∧
        read64 (write64 (memset mm 0x1000 1 PGSIZE) 0x1000 v) 0x1000 = v :=
    fun mm f v hv => ⟨Function.update_same _ _ _, read64_write64 _ _ _ hv⟩
  have h1 := hafter m (boot m).freelist 0 (by decide)
  have h2 := hafter (write64 (memset m 0x1000 1 PGSIZE) 0x1000 0)
    (Function.update (boot m).freelist 0 0x1000) 0x1000 (by decide)
  have hhead : Function.update (boot m).freelist 0 0x1000 0 = 0x1000 := h1.1
  refine ⟨_, _, hrun (boot m), ⟨h1.1.symm ▸ rfl, by decide, ?_⟩, hrun _, h2.1, ?_, ?_⟩
  · show IsList _ (read64 (write64 (memset m 0x1000 1 PGSIZE) 0x1000 0) 0x1000) []
    rw [h1.2]
    rfl
  · show read64 (write64 (memset (write64 (memset m 0x1000 1 PGSIZE) 0x1000 0) 0x1000 1 PGSIZE)
      0x1000 (Function.update (boot m).freelist 0 0x1000 0)) 0x1000 = 0x1000
    rw [hhead]
    exact h2.2
  · intro L
    show ¬ IsList (write64 (memset (write64 (memset m 0x1000 1 PGSIZE) 0x1000 0) 0x1000 1 PGSIZE)
      0x1000 (Function.update (boot m).freelist 0 0x1000 0))
      (Function.update (Function.update (boot m).freelist 0 0x1000) 0 0x1000 0) L
    rw [h2.1, hhead]
    exact hloop _ h2.2 L

/-- C11 (counterexample): with the upper bound `0x4800`, which is not a multiple of the page
size, the page-aligned address `0x4000` lies between the rounded-up lower bound and the
upper bound, yet after `freerange` it is in no pool: the loop stops as soon as a whole
page no longer fits below the upper bound. -/
theorem freerange_skips_partial_page :
    0x4000 % 4096 = 0 ∧ PGROUNDUP unaligned_cfg.kend ≤ 0x4000 ∧ 0x4000 < unaligned_cfg.PHYSTOP ∧
      ∃ s, freerange unaligned_cfg unaligned_cfg.kend unaligned_cfg.PHYSTOP (boot fun _ => 0)
          = .ok () s ∧
        ∀ pools, Pools unaligned_cfg s pools → 0x4000 ∉ pooled unaligned_cfg pools := by
  have hc : unaligned_cfg.ok := by simp [Config.ok, unaligned_cfg]
  obtain ⟨s, hrun, hP⟩ := freerange_spec unaligned_cfg hc (by decide) (boot fun _ => 0)
    (fun _ _ => rfl)
  refine ⟨by decide, by decide, by decide, s, hrun, fun pools hP' hin => ?_⟩
  obtain ⟨i, hi, hmem⟩ := (mem_pooled _ _ _).1 hin
  have e := IsList_unique s.mem _ _ _ (hP'.is_list i hi) (hP.is_list i hi)
  rw [e] at hmem
  obtain ⟨k, hk, _, hp⟩ := mem_seeded unaligned_cfg _ _ i hmem
  have hcount : page_count unaligned_cfg = 3 := by decide
  rw [hcount] at hk
  have h4 : page_at unaligned_cfg k = PGROUNDUP unaligned_cfg.kend + k * PGSIZE := rfl
  have h5 : PGROUNDUP unaligned_cfg.kend = 0x1000 := by decide
  rw [h4, h5] at hp
  simp only [PGSIZE] at hp
  omega

/-- C11 (amended): a call `freerange(lower, upper)` with `end ≤ lower ≤ PHYSTOP` and
`upper ≤ PHYSTOP`, in a state whose pools are proper lists that hold no address of
`[roundup(lower), upper)` (in `kinit` the pools are empty), returns normally.  The lower
bound is rounded up to the next multiple of 4096, and the pages freed are the
page-aligned addresses `a` from there on with `a + 4096 ≤ upper` (the whole page lies
below the upper bound).  The page with index `k = (a - roundup(lower)) / 4096` in
increasing address order goes to pool `k mod N`: pool `j` is afterwards the list
`added j` of exactly these pages on top of the list it held before, so every such page
is in exactly one pool and no other address came into any pool; each `added j` is in
decreasing address order, the last page freed on top. -/
theorem freerange_seeds_pools (cfg : Config) (hc : cfg.ok) (lower upper : Nat)
    (hlo : cfg.kend ≤ lower) (hlo2 : lower ≤ cfg.PHYSTOP) (hhi : upper ≤ cfg.PHYSTOP)
    (s : KState) (pools0 : Nat → List Nat) (hP : Pools cfg s pools0)
    (hfresh : ∀ a, PGROUNDUP lower ≤ a → a < upper → a ∉ pooled cfg pools0) :
    ∃ (s' : KState) (added : Nat → List Nat), freerange cfg lower upper s = .ok () s' ∧
      Pools cfg s' (fun j => added j ++ pools0 j) ∧
      (PGROUNDUP lower % 4096 = 0 ∧ lower ≤ PGROUNDUP lower ∧
        PGROUNDUP lower < lower + 4096) ∧
      (∀ j a, a ∈ added j ↔
        a % 4096 = 0 ∧ PGROUNDUP lower ≤ a ∧ a + 4096 ≤ upper ∧
          (a - PGROUNDUP lower) / 4096 % cfg.NCPU = j) ∧
      (∀ j, (added j).Pairwise fun a b => b < a) := by
  have hP43 : cfg.PHYSTOP < 2 ^ 43 := hc.2.2
  have hge : lower ≤ PGROUNDUP lower := PGROUNDUP_ge lower (by simp only [PGSIZE]; omega)
  have hnext := PGROUNDUP_next lower
  have hmod : PGROUNDUP lower % 4096 = 0 := PGROUNDUP_mod lower
  have hat : ∀ k, page_at (range_cfg cfg lower upper) k = PGROUNDUP lower + k * 4096 :=
    fun _ => rfl
  obtain ⟨s', hrun, hP'⟩ := freerange_run cfg hc lower upper (by omega) hhi
    (by simp only [PGSIZE]; omega) s pools0 hP (fun k hk => by
      have hfit := page_at_fits (range_cfg cfg lower upper) k hk
      rw [hat] at hfit ⊢
      have hu : (range_cfg cfg lower upper).PHYSTOP = upper := rfl
      rw [hu] at hfit
      simp only [PGSIZE] at hfit
      exact hfresh _ (by omega) (by omega))
  refine ⟨s', _, hrun, hP', ⟨hmod, hge, hnext⟩, fun j a => ?_,
    fun j => seeded_decreasing (range_cfg cfg lower upper) j _⟩
  rw [seeded_mem_iff]
  have hu : (range_cfg cfg lower upper).PHYSTOP = upper := rfl
  have hN : (range_cfg cfg lower upper).NCPU = cfg.NCPU := rfl
  constructor
  · rintro ⟨k, hk, hj, e⟩
    have hfit := (page_index_lt_iff _ k).1 hk
    rw [hat] at e
    rw [hat, hu] at hfit
    rw [hN] at hj
    simp only [PGSIZE] at hfit
    have hk' : (a - PGROUNDUP lower) / 4096 = k := by omega
    rw [hk']
    exact ⟨by omega, by omega, by omega, hj⟩
  · rintro ⟨ha, hle, hfit, hj⟩
    have e : a = PGROUNDUP lower + (a - PGROUNDUP lower) / 4096 * 4096 := by omega
    refine ⟨(a - PGROUNDUP lower) / 4096, (page_index_lt_iff _ _).2 ?_, hj, ?_⟩
    · rw [hat, hu, ← e]
      exact hfit
    · rw [hat]
      exact e

theorem freerange_seeds_pools_witness :
    ∃ (s' : KState) (added : Nat → List Nat),
      freerange demo_cfg 0x1001 0x4800 (boot fun _ => 0) = .ok () s' ∧
      Pools demo_cfg s' (fun j => added j ++ (fun _ => []) j) ∧
      (PGROUNDUP 0x1001 % 4096 = 0 ∧ 0x1001 ≤ PGROUNDUP 0x1001 ∧
        PGROUNDUP 0x1001 < 0x1001 + 4096) ∧
      (∀ j a, a ∈ added j ↔
        a % 4096 = 0 ∧ PGROUNDUP 0x1001 ≤ a ∧ a + 4096 ≤ 0x4800 ∧
          (a - PGROUNDUP 0x1001) / 4096 % demo_cfg.NCPU = j) ∧
      (∀ j, (added j).Pairwise fun a b => b < a) :=
  freerange_seeds_pools demo_cfg demo_cfg_ok 0x1001 0x4800 (by decide) (by decide) (by decide)
    (boot fun _ => 0) (fun _ => []) (Pools.empty demo_cfg _ fun _ _ => rfl)
    (fun a _ _ h => by rw [pooled_nil] at h; exact absurd h (List.not_mem_nil a))

/-! ## Alignment and range -/

/-- With a page at the head of the local pool, `kalloc` pops it: the result is the old
head, the new head is the link read from the page, and the page is filled with 5. -/
theorem kalloc_head (cfg : Config) (fuel c : Nat) (s : KState) (h : s.freelist c ≠ 0) :
    kalloc cfg fuel c s = .ok (s.freelist c)
      ⟨memset s.mem (s.freelist c) 5 PGSIZE,
        Function.update s.freelist c (read64 s.mem (s.freelist c)),
        s.trace ++ [Ev.push_off, Ev.acquire c, Ev.release c, Ev.pop_off]⟩ := by
  have h' : (push_off s).freelist c ≠ 0 := h
  have hpop := kalloc_pop_head c (push_off s) h'
  have e : (push_off s).freelist c = s.freelist c := rfl
  simp only [kalloc, hpop, Res.bind]
  simp [e, h, Res.bind, pop_off, release, acquire, push_off, set_freelist]

theorem read64_memset_five (m : Nat → Nat) (p : Nat) :
    read64 (memset m p 5 PGSIZE) p = 0x0505050505050505 := by
  simp [read64, memset, PGSIZE]

/-- C12 (counterexample): `kfree_cpu` accepts a page that is still in a pool.  With two
pools over `[0x1000, 0x5000)`, after `kinit` page `0x4000` heads pool 1; the call
`kfree_cpu(0x4000, 0)` passes the alignment and range test and puts the page on pool 0
as well.  `kalloc` on core 0 returns `0x4000` and fills it with 5; `kalloc` on core 1
returns `0x4000` again and takes the new head of pool 1 from the filled page.  No call
panics, and `kmem[1].freelist` is then `0x0505050505050505`, which is neither a
multiple of 4096 nor below `PHYSTOP`. -/
theorem double_free_puts_poison_in_pool :
    ∃ s0 s1 s2 s3, kinit demo_cfg (boot fun _ => 0) = .ok () s0 ∧
      kfree_cpu demo_cfg 0x4000 0 s0 = .ok () s1 ∧
      kalloc demo_cfg 2 0 s1 = .ok 0x4000 s2 ∧
      kalloc demo_cfg 2 1 s2 = .ok 0x4000 s3 ∧
      s3.freelist 1 = 0x0505050505050505 ∧
      ¬ (0x0505050505050505 % 4096 = 0) ∧ ¬ (0x0505050505050505 < demo_cfg.PHYSTOP) := by
  obtain ⟨s0, hrun0, hP0⟩ := kinit_spec demo_cfg demo_cfg_ok (by decide) fun _ => 0
  rw [demo_seeded] at hP0
  have h1 : s0.freelist 1 = 0x4000 := (hP0.is_list 1 (by decide)).1
  have hv : valid_page demo_cfg 0x4000 := by decide
  have hf1 : (Function.update s0.freelist 0 0x4000) 0 = 0x4000 := Function.update_same _ _ _
  have hk1 := kalloc_head demo_cfg 2 0
    ⟨write64 (memset s0.mem 0x4000 1 PGSIZE) 0x4000 (s0.freelist 0),
      Function.update s0.freelist 0 0x4000, s0.trace ++ [Ev.acquire 0] ++ [Ev.release 0]⟩
    (by show Function.update s0.freelist 0 0x4000 0 ≠ 0; rw [hf1]; decide)
  simp only [hf1] at hk1
  have hf2 : (Function.update (Function.update s0.freelist 0 0x4000) 0
      (read64 (write64 (memset s0.mem 0x4000 1 PGSIZE) 0x4000 (s0.freelist 0)) 0x4000)) 1
      = 0x4000 := by
    rw [Function.update_noteq (by decide), Function.update_noteq (by decide), h1]
  have hk2 := kalloc_head demo_cfg 2 1
    ⟨memset (write64 (memset s0.mem 0x4000 1 PGSIZE) 0x4000 (s0.freelist 0)) 0x4000 5 PGSIZE,
      Function.update (Function.update s0.freelist 0 0x4000) 0
        (read64 (write64 (memset s0.mem 0x4000 1 PGSIZE) 0x4000 (s0.freelist 0)) 0x4000),
      s0.trace ++ [Ev.acquire 0] ++ [Ev.release 0] ++
        [Ev.push_off, Ev.acquire 0, Ev.release 0, Ev.pop_off]⟩
    (by dsimp only; rw [hf2]; decide)
  simp only [hf2] at hk2
  refine ⟨s0, _, _, _, hrun0, kfree_cpu_ok demo_cfg 0x4000 0 s0 hv, hk1, hk2, ?_,
    by decide, by decide⟩
  dsimp only
  rw [Function.update_same]
  exact read64_memset_five _ _

/-- C12 (amended): in every state reached from `kinit` by sequential calls of `kalloc`, of
`kfree` and `kfree_cpu` on pages that a caller holds at that moment (returned by `kalloc`
and not freed since), and of sufficiently supplied `steal_pages`, none of which panics,
every address in any pool's list and every non-zero address that `kalloc` returns is a
multiple of 4096 inside `[end, PHYSTOP)`; every address that `kfree_cpu` or `kfree`
accepts without panicking has the same two properties. -/
theorem addresses_aligned_and_in_range (cfg : Config) (hc : cfg.ok) (s : KState)
    (held : List Nat) (h : Reachable cfg s held) :
    (∃ pools, Pools cfg s pools ∧
      ∀ i p, i < cfg.NCPU → p ∈ pools i → p % 4096 = 0 ∧ cfg.kend ≤ p ∧ p < cfg.PHYSTOP) ∧
    (∀ fuel c r s', c < cfg.NCPU → kalloc cfg fuel c s = .ok r s' → r ≠ 0 →
      r % 4096 = 0 ∧ cfg.kend ≤ r ∧ r < cfg.PHYSTOP) ∧
    (∀ pa id s', kfree_cpu cfg pa id s = .ok () s' →
      pa % 4096 = 0 ∧ cfg.kend ≤ pa ∧ pa < cfg.PHYSTOP) ∧
    (∀ c pa s', kfree cfg c pa s = .ok () s' →
      pa % 4096 = 0 ∧ cfg.kend ≤ pa ∧ pa < cfg.PHYSTOP) := by
  obtain ⟨pools, hP, _⟩ := reachable_inv cfg hc s held h
  refine ⟨⟨pools, hP, fun i p hi hp => hP.is_valid p ((mem_pooled cfg pools p).2 ⟨i, hi, hp⟩)⟩,
    fun fuel c r s' hcN hrun hr => ?_, fun pa id s' hrun => ?_, fun c pa s' hrun => ?_⟩
  · rcases kalloc_spec cfg hc fuel c hcN s pools hP with
      ⟨j, p, rest, s1, hj, hpj, _, hrun1, _, _, _⟩ | ⟨_, _, s1, hrun1, _, _⟩ | ⟨_, _, hrun1⟩
    · rw [hrun1] at hrun
      injection hrun with e _
      subst e
      exact hP.is_valid p ((mem_pooled cfg pools p).2
        ⟨j, hj, by rw [hpj]; exact List.mem_cons_self p rest⟩)
    · rw [hrun1] at hrun
      injection hrun with e _
      exact absurd e.symm hr
    · rw [hrun1] at hrun
      exact Res.noConfusion hrun
  · by_cases hv : valid_page cfg pa
    · exact hv
    · rw [kfree_cpu_panic cfg pa id s hv] at hrun
      exact Res.noConfusion hrun
  · by_cases hv : valid_page cfg pa
    · exact hv
    · rw [kfree_panic cfg c pa s hv] at hrun
      exact Res.noConfusion hrun

theorem addresses_aligned_and_in_range_witness :
    ∃ s, Reachable demo_cfg s [0x1000, 0x3000] ∧
    (∃ pools, Pools demo_cfg s pools ∧
      ∀ i p, i < demo_cfg.NCPU → p ∈ pools i →
        p % 4096 = 0 ∧ demo_cfg.kend ≤ p ∧ p < demo_cfg.PHYSTOP) ∧
    (∀ fuel c r s', c < demo_cfg.NCPU → kalloc demo_cfg fuel c s = .ok r s' → r ≠ 0 →
      r % 4096 = 0 ∧ demo_cfg.kend ≤ r ∧ r < demo_cfg.PHYSTOP) ∧
    (∀ pa id s', kfree_cpu demo_cfg pa id s = .ok () s' →
      pa % 4096 = 0 ∧ demo_cfg.kend ≤ pa ∧ pa < demo_cfg.PHYSTOP) ∧
    (∀ c pa s', kfree demo_cfg c pa s = .ok () s' →
      pa % 4096 = 0 ∧ demo_cfg.kend ≤ pa ∧ pa < demo_cfg.PHYSTOP) := by
  obtain ⟨_, _, s, _, _, _, hr, _⟩ := demo_after_two_allocs (fun _ => 0) 2
  exact ⟨s, hr, addresses_aligned_and_in_range demo_cfg demo_cfg_ok s _ hr⟩

/-! ## The concrete scenario, step by step -/

/-- The concrete scenario step by step: the lists after `kinit`, after the first and after
the second `kalloc` on core 0. -/
theorem demo_scenario (m : Nat → Nat) (fuel : Nat) :
    ∃ s0 s1 s2, kinit demo_cfg (boot m) = .ok () s0 ∧
      Pools demo_cfg s0
        (fun j => if j = 0 then [0x3000, 0x1000] else if j = 1 then [0x4000, 0x2000] else []) ∧
      kalloc demo_cfg fuel 0 s0 = .ok 0x3000 s1 ∧
      kalloc demo_cfg fuel 0 s1 = .ok 0x1000 s2 ∧
      Pools demo_cfg s2 demo_pools := by
  obtain ⟨s0, hrun0, hP0⟩ := kinit_spec demo_cfg demo_cfg_ok (by decide) m
  rw [demo_seeded] at hP0
  obtain ⟨s1, hrun1, hP1⟩ := kalloc_local demo_cfg demo_cfg_ok fuel 0 (by decide) s0 _ hP0
    0x3000 [0x1000] rfl
  obtain ⟨s2, hrun2, hP2⟩ := kalloc_local demo_cfg demo_cfg_ok fuel 0 (by decide) s1 _ hP1
    0x1000 [] (by rw [Function.update_same])
  have e : Function.update (Function.update
      (fun j => if j = 0 then [0x3000, 0x1000] else if j = 1 then [0x4000, 0x2000] else [])
      0 [0x1000]) 0 [] = demo_pools := by
    funext j
    simp only [Function.update_apply, demo_pools]
    by_cases h0 : j = 0
    · subst h0; rfl
    · simp [h0]
  rw [e] at hP2
  exact ⟨s0, s1, s2, hrun0, hP0, hrun1, hrun2, hP2⟩

/-- C13 (evaluated at the failing input): with the range `[0x1000, 0x5000)` and two pools,
after `kinit` and two calls of `kalloc` on core 0 pool 0 is empty and pool 1 holds two
pages; the third `kalloc` on core 0 returns 0 and steals nothing: pool 1 still holds
`0x4000` and `0x2000`. -/
theorem third_kalloc_returns_zero (m : Nat → Nat) :
    ∃ s0 s1 s2 s3, kinit demo_cfg (boot m) = .ok () s0 ∧
      kalloc demo_cfg 2 0 s0 = .ok 0x3000 s1 ∧
      kalloc demo_cfg 2 0 s1 = .ok 0x1000 s2 ∧
      Pools demo_cfg s2 demo_pools ∧
      kalloc demo_cfg 2 0 s2 = .ok 0 s3 ∧
      Pools demo_cfg s3 demo_pools ∧ demo_pools 0 = [] ∧ (demo_pools 1).length = 2 := by
  obtain ⟨s0, s1, s2, h0, _, h1, h2, hP⟩ := demo_scenario m 2
  obtain ⟨s3, hrun, hm, hf⟩ := kalloc_skips_longer_pools demo_cfg demo_cfg_ok 2 0 (by decide) s2
    demo_pools hP rfl
    (fun j hj => by
      have hj2 : j < 2 := hj
      interval_cases j <;> simp [demo_pools])
    (fun j hj => by
      have hj2 : j < 2 := hj
      interval_cases j <;> simp [demo_pools])
  exact ⟨s0, s1, s2, s3, h0, h1, h2, hP, hrun, hP.congr hm hf, rfl, rfl⟩

/-- C14: with the range `[0x1000, 0x5000)` and two pools, after `kinit` pool 0 is the list
`[0x3000, 0x1000]` and pool 1 is the list `[0x4000, 0x2000]`; two calls of `kalloc` on
core 0 return `0x3000` and then `0x1000`, and leave pool 0 empty and pool 1 as it was. -/
theorem scenario_seeding_and_local_allocation (m : Nat → Nat) (fuel : Nat) :
    ∃ s0 s1 s2 pools0 pools2, kinit demo_cfg (boot m) = .ok () s0 ∧
      Pools demo_cfg s0 pools0 ∧ pools0 0 = [0x3000, 0x1000] ∧ pools0 1 = [0x4000, 0x2000] ∧
      kalloc demo_cfg fuel 0 s0 = .ok 0x3000 s1 ∧
      kalloc demo_cfg fuel 0 s1 = .ok 0x1000 s2 ∧
      Pools demo_cfg s2 pools2 ∧ pools2 0 = [] ∧ pools2 1 = [0x4000, 0x2000] := by
  obtain ⟨s0, s1, s2, h0, hP0, h1, h2, hP2⟩ := demo_scenario m fuel
  exact ⟨s0, s1, s2, _, _, h0, hP0, rfl, rfl, h1, h2, hP2, rfl, rfl⟩

/-! ## Lock events -/

theorem steal_loop_trace (dest src : Nat) :
    ∀ n s s', steal_loop dest src n s = .ok () s' → s'.trace = s.trace := by
  intro n
  induction n with
  | zero =>
    intro s s' h
    simp only [steal_loop] at h
    injection h with _ e
    rw [← e]
  | succ n ih =>
    intro s s' h
    simp only [steal_loop] at h
    by_cases hr : s.freelist src = 0
    · rw [if_pos hr] at h
      exact Res.noConfusion h
    · rw [if_neg hr] at h
      have h2 := ih _ _ h
      exact h2

theorem steal_pages_trace (dest src n : Nat) (s s' : KState) (hne : dest ≠ src)
    (h : steal_pages dest src n s = .ok () s') :
    s'.trace = s.trace ++
      [Ev.acquire dest, Ev.acquire src, Ev.release src, Ev.release dest] := by
  simp only [steal_pages, if_neg hne] at h
  cases hl : steal_loop dest src n (acquire src (acquire dest s)) with
  | ok v s1 =>
    rw [hl] at h
    simp only [Res.bind] at h
    injection h with _ e
    rw [← e]
    have := steal_loop_trace dest src n _ _ hl
    simp [release, acquire, this]
  | panic msg t => rw [hl] at h; exact Res.noConfusion h
  | fault t => rw [hl] at h; exact Res.noConfusion h
  | timeout => rw [hl] at h; exact Res.noConfusion h

/-- C16 (evaluated at the failing input): in the two-pool scenario `steal_pages(0, 1, 1)`
takes the lock of pool 0 and then, holding it, the lock of pool 1, while
`steal_pages(1, 0, 1)` takes the lock of pool 1 and then, holding it, the lock of pool 0:
the destination is locked first, whatever its id, so no fixed order of the ids is kept. -/
theorem steal_pages_lock_order_follows_roles :
    ∃ s1 s2, steal_pages 0 1 1 demo_state = .ok () s1 ∧
      s1.trace = demo_state.trace ++
        [Ev.acquire 0, Ev.acquire 1, Ev.release 1, Ev.release 0] ∧
      steal_pages 1 0 1 s1 = .ok () s2 ∧
      s2.trace = s1.trace ++ [Ev.acquire 1, Ev.acquire 0, Ev.release 0, Ev.release 1] :=
  ⟨_, _, rfl, rfl, rfl, rfl⟩

/-! ## The probes of `kalloc` -/

/-- C17 (evaluated at the failing input): pool 1 of the two-pool scenario holds two pages,
which is at least one, yet `has_pages(1, 1)` returns 0; memory and every `freelist` head
are as before the call. -/
theorem has_pages_misses_longer_pool :
    Pools demo_cfg demo_state demo_pools ∧ (demo_pools 1).length = 2 ∧
      ∃ s', has_pages 2 1 1 demo_state = .ok 0 s' ∧ s'.mem = demo_state.mem ∧
        s'.freelist = demo_state.freelist :=
  ⟨demo_state_pools, rfl, _, rfl, rfl, rfl⟩

/-- C18 (counterexample): page `0x4000` is a valid address that is still the head of
pool 1.  After `kfree_cpu(0x4000, 0)` pool 1 no longer holds its former list
`[0x4000, 0x2000]`: the link stored in `0x4000` now leads to the former head of pool 0. -/
theorem kfree_cpu_of_pooled_page_changes_other_pool :
    valid_page demo_cfg 0x4000 ∧ Pools demo_cfg demo_state demo_pools ∧
      demo_pools 1 = [0x4000, 0x2000] ∧
      ∃ s', kfree_cpu demo_cfg 0x4000 0 demo_state = .ok () s' ∧
        ¬ IsList s'.mem (s'.freelist 1) (demo_pools 1) :=
  ⟨by decide, demo_state_pools, rfl, _, rfl, by decide⟩

/-- C18 (amended): for every valid address `pa` that is in no pool's list and every pool
`id` below `NCPU`, `kfree_cpu(pa, id)` makes `pa` the head of pool `id` with the pool's
former list as its tail, so the length grows by one, and every other pool keeps its head
and its list. -/
theorem kfree_cpu_pushes_on_one_pool (cfg : Config) (hc : cfg.ok) (s : KState)
    (pools : Nat → List Nat) (hP : Pools cfg s pools) (pa id : Nat) (hid : id < cfg.NCPU)
    (hv : valid_page cfg pa) (hnot : pa ∉ pooled cfg pools) :
    ∃ s' pools', kfree_cpu cfg pa id s = .ok () s' ∧ Pools cfg s' pools' ∧
      s'.freelist id = pa ∧ pools' id = pa :: pools id ∧
      (pools' id).length = (pools id).length + 1 ∧
      ∀ j, j ≠ id → pools' j = pools j ∧ s'.freelist j = s.freelist j := by
  refine ⟨_, Function.update pools id (pa :: pools id), kfree_cpu_ok cfg pa id s hv,
    hP.free _ hc id pa hid hv hnot rfl rfl, ?_, ?_, ?_, fun j hj => ⟨?_, ?_⟩⟩
  · show Function.update s.freelist id pa id = pa
    rw [Function.update_same]
  · rw [Function.update_same]
  · rw [Function.update_same, List.length_cons]
  · rw [Function.update_noteq hj]
  · show Function.update s.freelist id pa j = s.freelist j
    rw [Function.update_noteq hj]

theorem kfree_cpu_pushes_on_one_pool_witness :
    ∃ s' pools', kfree_cpu demo_cfg 0x3000 0 demo_state = .ok () s' ∧
      Pools demo_cfg s' pools' ∧
      s'.freelist 0 = 0x3000 ∧ pools' 0 = 0x3000 :: demo_pools 0 ∧
      (pools' 0).length = (demo_pools 0).length + 1 ∧
      ∀ j, j ≠ 0 → pools' j = demo_pools j ∧ s'.freelist j = demo_state.freelist j :=
  kfree_cpu_pushes_on_one_pool demo_cfg demo_cfg_ok demo_state demo_pools demo_state_pools
    0x3000 0 (by decide) (by decide) (by decide)

/-- C19: for every address `pa`, core `c` and state, `kfree(pa)` run on core `c` panics
exactly when `kfree_cpu(pa, c)` panics, returns exactly when `kfree_cpu(pa, c)` returns,
and then leaves the same memory contents and the same `freelist` heads, hence the same
pool lists; neither of them traps or runs forever. -/
theorem kfree_agrees_with_kfree_cpu (cfg : Config) (c pa : Nat) (s : KState) :
    ((∃ msg t, kfree cfg c pa s = .panic msg t) ↔
        (∃ msg t, kfree_cpu cfg pa c s = .panic msg t)) ∧
    ((∃ s1 s2, kfree cfg c pa s = .ok () s1 ∧ kfree_cpu cfg pa c s = .ok () s2 ∧
        s1.mem = s2.mem ∧ s1.freelist = s2.freelist) ∨
      (∃ t1 t2, kfree cfg c pa s = .panic "kfree" t1 ∧
        kfree_cpu cfg pa c s = .panic "kfree_cpu" t2 ∧
        t1.mem = t2.mem ∧ t1.freelist = t2.freelist)) := by
  by_cases hv : valid_page cfg pa
  · rw [kfree_ok cfg c pa s hv, kfree_cpu_ok cfg pa c s hv]
    exact ⟨⟨fun ⟨_, _, h⟩ => Res.noConfusion h, fun ⟨_, _, h⟩ => Res.noConfusion h⟩,
      Or.inl ⟨_, _, rfl, rfl, rfl, rfl⟩⟩
  · rw [kfree_panic cfg c pa s hv, kfree_cpu_panic cfg pa c s hv]
    exact ⟨⟨fun _ => ⟨_, _, rfl⟩, fun _ => ⟨_, _, rfl⟩⟩, Or.inr ⟨_, _, rfl, rfl, rfl, rfl⟩⟩

/-! ## The steals of `kalloc` -/

/-- C20: in a state whose pools are proper lists, `kalloc` never traps and never panics.
Its only call of `steal_pages` is the guarded statement
`if(has_pages(next_neighbor, 1)) steal_pages(cpu_id, next_neighbor, 1)`: whenever the
probe of a pool returns non-zero, that pool holds exactly one page, and the call with
count 1 is a no-op when the pool is the local one and otherwise returns normally, moves
that single page to the local pool and leaves the source empty.  A page that `kalloc`
returns after a failed local pop is the single page of such a source, which is empty
afterwards. -/
theorem kalloc_steals_only_single_pages (cfg : Config) (hc : cfg.ok) (fuel c : Nat)
    (hcN : c < cfg.NCPU) (s : KState) (pools : Nat → List Nat) (hP : Pools cfg s pools) :
    (∀ t, kalloc cfg fuel c s ≠ .fault t) ∧
    (∀ msg t, kalloc cfg fuel c s ≠ .panic msg t) ∧
    (∀ nb b s1, nb < cfg.NCPU → has_pages fuel nb 1 s = .ok b s1 → b ≠ 0 →
      ∃ p, pools nb = [p] ∧ Pools cfg s1 pools ∧
        ((nb = c ∧ steal_pages c nb 1 s1 = .ok () s1) ∨
          (nb ≠ c ∧ ∃ s2, steal_pages c nb 1 s1 = .ok () s2 ∧
            Pools cfg s2 (Function.update (Function.update pools nb []) c (p :: pools c))))) ∧
    (∀ r s', kalloc cfg fuel c s = .ok r s' → r ≠ 0 → pools c = [] →
      ∃ j, j < cfg.NCPU ∧ j ≠ c ∧ pools j = [r] ∧
        Pools cfg s' (Function.update pools j [])) := by
  have hspec := kalloc_spec cfg hc fuel c hcN s pools hP
  refine ⟨fun t ht => ?_, fun msg t ht => ?_, fun nb b s1 hnb hrun hb => ?_,
    fun r s' hrun hr hnil => ?_⟩
  · rcases hspec with ⟨_, _, _, _, _, _, _, h, _⟩ | ⟨_, _, _, h, _⟩ | ⟨_, _, h⟩ <;>
      rw [h] at ht <;> exact Res.noConfusion ht
  · rcases hspec with ⟨_, _, _, _, _, _, _, h, _⟩ | ⟨_, _, _, h, _⟩ | ⟨_, _, h⟩ <;>
      rw [h] at ht <;> exact Res.noConfusion ht
  · have hl := hP.is_list nb hnb
    by_cases hfu : (pools nb).length ≤ fuel
    · rw [has_pages_ok fuel nb 1 s _ hl hfu] at hrun
      injection hrun with hb1 hs1
      have h1 : (pools nb).length = 1 := by
        by_cases h : (pools nb).length = 1
        · exact h
        · rw [if_neg h] at hb1
          exact absurd hb1.symm hb
      obtain ⟨p, hp⟩ := List.length_eq_one.1 h1
      have hP1 : Pools cfg s1 pools := by
        rw [← hs1]
        exact hP.congr rfl rfl
      refine ⟨p, hp, hP1, ?_⟩
      by_cases hnc : nb = c
      · left
        refine ⟨hnc, ?_⟩
        have e : c = nb := hnc.symm
        simp only [steal_pages, if_pos e]
      · right
        have hcn : c ≠ nb := fun e => hnc e.symm
        obtain ⟨s2, hsteal, hP2⟩ := steal_pages_ok cfg hc c nb 1 hcN hnb hcn s1 pools hP1
          (by omega)
        rw [hp] at hP2
        simp only [List.drop_succ_cons, List.drop_zero, List.take_succ_cons, List.take_zero,
          List.reverse_cons, List.reverse_nil, List.nil_append, List.singleton_append] at hP2
        exact ⟨hnc, s2, hsteal, hP2⟩
    · rw [has_pages_timeout fuel nb 1 s _ hl (by omega)] at hrun
      exact Res.noConfusion hrun
  · rcases hspec with ⟨j, p, rest, s1, hj, hpj, hcase, h, _, hP1, _⟩ | ⟨_, _, _, h, _⟩ |
      ⟨_, _, h⟩
    · rw [h] at hrun
      injection hrun with e1 e2
      subst e1
      subst e2
      rcases hcase with e | ⟨_, hrest⟩
      · subst e
        rw [hnil] at hpj
        exact List.noConfusion hpj
      · subst hrest
        refine ⟨j, hj, fun e => ?_, hpj, hP1⟩
        subst e
        rw [hnil] at hpj
        exact List.noConfusion hpj
    · rw [h] at hrun
      injection hrun with e1 _
      exact absurd e1.symm hr
    · rw [h] at hrun
      exact Res.noConfusion hrun

theorem stealable_state_pools : Pools demo_cfg stealable_state stealable_pools := by
  refine ⟨fun i hi => ?_, fun p hp => ?_, ?_⟩
  · have hi2 : i < 2 := hi
    interval_cases i
    · simp [stealable_state, stealable_pools, IsList]
    · simp [stealable_state, stealable_pools, IsList, read64, write64]
  · have : p = 0x2000 := by
      simpa [pooled, demo_cfg, stealable_pools, List.range_succ] using hp
    subst this
    decide
  · simp [pooled, demo_cfg, stealable_pools, List.range_succ]

theorem kalloc_steals_only_single_pages_witness :
    (∃ s', kalloc demo_cfg 1 0 stealable_state = .ok 0x2000 s') ∧
    (∀ t, kalloc demo_cfg 1 0 stealable_state ≠ .fault t) ∧
    (∀ msg t, kalloc demo_cfg 1 0 stealable_state ≠ .panic msg t) ∧
    (∀ nb b s1, nb < demo_cfg.NCPU → has_pages 1 nb 1 stealable_state = .ok b s1 → b ≠ 0 →
      ∃ p, stealable_pools nb = [p] ∧ Pools demo_cfg s1 stealable_pools ∧
        ((nb = 0 ∧ steal_pages 0 nb 1 s1 = .ok () s1) ∨
          (nb ≠ 0 ∧ ∃ s2, steal_pages 0 nb 1 s1 = .ok () s2 ∧
            Pools demo_cfg s2 (Function.update (Function.update stealable_pools nb []) 0
              (p :: stealable_pools 0))))) ∧
    (∀ r s', kalloc demo_cfg 1 0 stealable_state = .ok r s' → r ≠ 0 →
      stealable_pools 0 = [] →
      ∃ j, j < demo_cfg.NCPU ∧ j ≠ 0 ∧ stealable_pools j = [r] ∧
        Pools demo_cfg s' (Function.update stealable_pools j [])) :=
  ⟨⟨_, rfl⟩, kalloc_steals_only_single_pages demo_cfg demo_cfg_ok 1 0 (by decide)
    stealable_state stealable_pools stealable_state_pools⟩

/-! ## The race between the probe and the steal -/

/-- C3 (evaluated at the failing input): two pools, pool 0 empty, pool 1 holding the single
page `0x2000`.  Core 0 runs `kalloc`: its local pop finds nothing and its probe
`has_pages(1, 1)` returns 1.  Before core 0 goes on, core 1 runs `kalloc` and takes page
`0x2000`, which leaves pool 1 empty.  Core 0 then issues the steal that its probe called
for, with `dest = 0 ≠ src = 1` and `count = 1`: `steal_pages(0, 1, 1)` does not move 0
pages and return.  It takes both locks, reads `r->next` through the null head of pool 1
(line 144) and traps, the two locks still held. -/
theorem steal_pages_faults_after_lost_race :
    Pools demo_cfg stealable_state stealable_pools ∧
    ∃ sa sb sc sd, kalloc_pop 0 (push_off stealable_state) = (0, sa) ∧
      has_pages 1 1 1 sa = .ok 1 sb ∧
      kalloc demo_cfg 1 1 sb = .ok 0x2000 sc ∧
      sc.freelist 0 = 0 ∧ sc.freelist 1 = 0 ∧
      steal_pages 0 1 1 sc = .fault sd ∧
      sd.trace = sc.trace ++ [Ev.acquire 0, Ev.acquire 1] ∧
      sd.mem = sc.mem ∧ sd.freelist = sc.freelist :=
  ⟨stealable_state_pools, _, _, _, _, rfl, rfl, rfl, rfl, rfl, rfl, rfl, rfl, rfl⟩

end Kalloc
